import Mathlib

/-!
Mediloctae: the prefix tree and the expiry min-heap

A shallow embedding of `include/Trie.h`, `src/Trie.cpp` and `include/MinHeap.h`,
followed by the properties proved about them.

Conventions of the embedding.

* A `std::string` is a `List Char`, and a `char` is the `Char` whose code is the value
  of the byte, `0` to `255`. The map `std::map<char, TrieNode*>` keeps its keys in the
  order of `std::less<char>`; `char` is signed on the build platform (x86-64), so the
  bytes `128` to `255` come before the bytes `0` to `127` there (`charValue`). The order
  of `std::string` compares the bytes as `unsigned char` (`StrLt`).
* A `TrieNode*` is never null in a trie built by `insert`, so a node is a value and the
  pointer-chasing loops of `insert`, `search` and `startsWith` become recursions on the
  remaining characters of the word.
* A `std::vector<MedicineItem>` is a `List MedicineItem`. Reading `heap[i]` outside the
  storage is undefined behaviour in the source; the embedding makes such a read fail
  (`none`), so that a result `some _` says that every read was inside the storage.
* Indices are `int` in the source and `Nat` here. `(index - 1) / 2` is `0` at index `0`
  in both (C++ division truncates towards zero, `Nat` subtraction stops at zero). The
  two agree as long as the storage holds fewer than `2^30` records, which is assumed.
* `heapifyUp` and `heapifyDown` are recursive in the source. Here they recurse on a
  fuel argument and the entry points supply enough fuel; running out of fuel is `none`.
-/

namespace Mediloctae

/-! ## Trie.h, Trie.cpp -/

/-- A `std::string`. -/
abbrev Str := List Char

/-- The function `std::tolower` in the "C" locale: `A`..`Z` go to `a`..`z`, every other
character is returned unchanged. -/
def tolower (c : Char) : Char :=
  if 'A' ≤ c ∧ c ≤ 'Z' then Char.ofNat (c.toNat + 32) else c

mutual
/-- Class `TrieNode`: the flag `isEndOfWord` and the map `children`. -/
inductive TrieNode where
  | mk (isEndOfWord : Bool) (children : Children) : TrieNode
/-- A `std::map<char, TrieNode*>`: its entries, listed in the order of iteration. -/
inductive Children where
  | nil : Children
  | cons (key : Char) (child : TrieNode) (rest : Children) : Children
end

/-- Member `isEndOfWord` of a node. -/
def TrieNode.isEndOfWord : TrieNode → Bool
  | .mk e _ => e

/-- Member `children` of a node. -/
def TrieNode.children : TrieNode → Children
  | .mk _ m => m

/-- Constructor `TrieNode::TrieNode()`: not the end of a word, no children. -/
def TrieNode.new : TrieNode := .mk false .nil

/-- Lookup `children.find(c)`: the child stored under `c`, `none` for `children.end()`. -/
def Children.find : Children → Char → Option TrieNode
  | .nil, _ => none
  | .cons k child rest, c => if c = k then some child else rest.find c

/-- Value of a `char` as `std::less<char>` compares it: `char` is signed, so the bytes
`128` to `255` count as `-128` to `-1`. A code above `255` stands for no `char` and keeps
its value. -/
def charValue (c : Char) : Int :=
  if 128 ≤ c.toNat ∧ c.toNat < 256 then (c.toNat : Int) - 256 else (c.toNat : Int)

/-- Assignment `children[c] = n`: the entry is placed at its position in the key order of
the map, replacing the entry of an equal key. -/
def Children.set : Children → Char → TrieNode → Children
  | .nil, c, n => .cons c n .nil
  | .cons k child rest, c, n =>
    if charValue c < charValue k then .cons c n (.cons k child rest)
    else if c = k then .cons c n rest
    else .cons k child (rest.set c n)

/-- Constructor `Trie::Trie()`: the root is a fresh node. -/
def Trie.new : TrieNode := TrieNode.new

/-- Method `Trie::insert`, from the node `current` on: each character is lowercased, a
missing edge gets a fresh node, and the node reached at the end of the word is marked. -/
def Trie.insert : TrieNode → Str → TrieNode
  | current, [] => .mk true current.children
  | current, ch :: rest =>
    let c := tolower ch
    let child := match current.children.find c with
      | none => TrieNode.new
      | some n => n
    .mk current.isEndOfWord (current.children.set c (Trie.insert child rest))

/-- Method `Trie::search`, from the node `node` on: `false` as soon as an edge is
missing, otherwise the flag of the node reached. -/
def Trie.search : TrieNode → Str → Bool
  | node, [] => node.isEndOfWord
  | node, ch :: rest =>
    match node.children.find (tolower ch) with
    | none => false
    | some child => Trie.search child rest

mutual
/-- Method `Trie::dfs`: push the word of a terminal node, then visit the children. -/
def Trie.dfs : TrieNode → Str → List Str → List Str
  | .mk e m, pre, results =>
    Trie.dfsChildren m pre (if e then results ++ [pre] else results)
/-- The loop `for (const auto& pair : node->children)` of `Trie::dfs`. -/
def Trie.dfsChildren : Children → Str → List Str → List Str
  | .nil, _, results => results
  | .cons k child rest, pre, results =>
    Trie.dfsChildren rest pre (Trie.dfs child (pre ++ [k]) results)
end

/-- The second loop of `Trie::startsWith`: follow the characters as they are, `none`
when an edge is missing ("Prefix not found"). -/
def Trie.walk : TrieNode → Str → Option TrieNode
  | node, [] => some node
  | node, c :: rest =>
    match node.children.find c with
    | none => none
    | some child => Trie.walk child rest

/-- Method `Trie::startsWith`. -/
def Trie.startsWith (root : TrieNode) (pre : Str) : List Str :=
  let results : List Str := []
  let lowerPrefix := pre.map tolower
  match Trie.walk root lowerPrefix with
  | none => results
  | some node => Trie.dfs node lowerPrefix results

/-- The trie obtained from a fresh one by inserting the words of `ws`, first to last. -/
def Trie.insertAll (ws : List Str) : TrieNode := ws.foldl Trie.insert Trie.new

/-! ## MinHeap.h -/

/-- Struct `MedicineItem`. -/
structure MedicineItem where
  id : Int
  name : String
  brand : String
  quantity : Int
  expiryDate : String
deriving DecidableEq

/-- The fields of `struct tm` that `getExpiryTime` sets; the others stay zero. -/
structure Tm where
  tm_year : Int
  tm_mon : Int
  tm_mday : Int
deriving DecidableEq

/-- White space as `sscanf` skips it before a `%d`. -/
def isSpace (c : Char) : Bool :=
  c.toNat = 32 || (9 ≤ c.toNat && c.toNat ≤ 13)

/-- Drop leading white space. -/
def skipSpaces : List Char → List Char
  | [] => []
  | c :: cs => if isSpace c then skipSpaces cs else c :: cs

/-- Read decimal digits, accumulating their value. -/
def scanDigits : List Char → Nat → Nat × List Char
  | [], acc => (acc, [])
  | c :: cs, acc =>
    if c.isDigit then scanDigits cs (10 * acc + (c.toNat - 48)) else (acc, c :: cs)

/-- Whether the input starts with a decimal digit. -/
def startsWithDigit : List Char → Bool
  | [] => false
  | c :: _ => c.isDigit

/-- Conversion `%d` of `sscanf`: white space, an optional sign, at least one digit. The
result is the number and the rest of the input, or `none` when nothing matches. -/
def scanInt (s : List Char) : Option (Int × List Char) :=
  match skipSpaces s with
  | '-' :: cs =>
    if startsWithDigit cs then some (-((scanDigits cs 0).1 : Int), (scanDigits cs 0).2)
    else none
  | '+' :: cs =>
    if startsWithDigit cs then some (((scanDigits cs 0).1 : Int), (scanDigits cs 0).2)
    else none
  | cs =>
    if startsWithDigit cs then some (((scanDigits cs 0).1 : Int), (scanDigits cs 0).2)
    else none

/-- The literal `-` of the format string. -/
def expectDash : List Char → Option (List Char)
  | '-' :: cs => some cs
  | _ => none

/-- The call `sscanf(s, "%d-%d-%d", &tm.tm_year, &tm.tm_mon, &tm.tm_mday)`: the fields
are assigned left to right until the input stops matching. -/
def sscanfDate (s : List Char) (tm : Tm) : Tm :=
  match scanInt s with
  | none => tm
  | some (y, r1) =>
    let tm1 := { tm with tm_year := y }
    match expectDash r1 with
    | none => tm1
    | some r2 =>
      match scanInt r2 with
      | none => tm1
      | some (m, r3) =>
        let tm2 := { tm1 with tm_mon := m }
        match expectDash r3 with
        | none => tm2
        | some r4 =>
          match scanInt r4 with
          | none => tm2
          | some (d, _) => { tm2 with tm_mday := d }

/-- Method `MedicineItem::getExpiryTime`. The C library's `mktime` depends on the time
zone of the process, so it is a parameter: every general statement below holds for
every `mktime`. -/
def MedicineItem.getExpiryTime (mktime : Tm → Int) (item : MedicineItem) : Int :=
  let tm : Tm := ⟨0, 0, 0⟩
  let tm := sscanfDate item.expiryDate.toList tm
  let tm := { tm with tm_year := tm.tm_year - 1900 }
  let tm := { tm with tm_mon := tm.tm_mon - 1 }
  mktime tm

/-- Days between 1970-01-01 and the given day of the proleptic Gregorian calendar. -/
def daysFromCivil (y m d : Int) : Int :=
  let y := if m ≤ 2 then y - 1 else y
  let era := y / 400
  let yoe := y - era * 400
  let doy := (153 * (if m > 2 then m - 3 else m + 9) + 2) / 5 + d - 1
  let doe := yoe * 365 + yoe / 4 - yoe / 100 + doy
  era * 146097 + doe - 719468

/-- One instance of `mktime`, used for the concrete examples only: the time zone is UTC,
so the result is the number of seconds from the epoch to midnight of the day. -/
def mktimeUTC (tm : Tm) : Int :=
  let y := tm.tm_year + 1900 + tm.tm_mon / 12
  let m := tm.tm_mon % 12 + 1
  daysFromCivil y m tm.tm_mday * 86400

/-- Ways a call on the heap can end without a value. -/
inductive HeapError where
  /-- The exception `std::runtime_error("Heap is empty")`. -/
  | heapIsEmpty
  /-- A read outside the storage, or a repair that ran out of fuel. -/
  | undefinedBehaviour
deriving DecidableEq

/-- Method `MinHeap::heapifyUp`, with a bound on the depth of the recursion. -/
def MinHeap.heapifyUpFuel (mktime : Tm → Int) :
    Nat → List MedicineItem → Nat → Option (List MedicineItem)
  | 0, _, _ => none
  | fuel + 1, heap, index =>
    let parent := (index - 1) / 2
    if index > 0 then
      match heap[index]?, heap[parent]? with
      | some a, some b =>
        if a.getExpiryTime mktime < b.getExpiryTime mktime then
          MinHeap.heapifyUpFuel mktime fuel ((heap.set index b).set parent a) parent
        else some heap
      | _, _ => none
    else some heap

/-- Method `MinHeap::heapifyUp`. -/
def MinHeap.heapifyUp (mktime : Tm → Int) (heap : List MedicineItem) (index : Nat) :
    Option (List MedicineItem) :=
  MinHeap.heapifyUpFuel mktime (index + 1) heap index

/-- One of the two tests of `heapifyDown`:
`if (child < heap.size() && heap[child] < heap[smallest]) smallest = child;`,
returning the new value of `smallest`. -/
def MinHeap.pickSmaller (mktime : Tm → Int) (heap : List MedicineItem)
    (child smallest : Nat) : Option Nat :=
  if child < heap.length then
    match heap[child]?, heap[smallest]? with
    | some a, some b =>
      if a.getExpiryTime mktime < b.getExpiryTime mktime then some child else some smallest
    | _, _ => none
  else some smallest

/-- Method `MinHeap::heapifyDown`, with a bound on the depth of the recursion. -/
def MinHeap.heapifyDownFuel (mktime : Tm → Int) :
    Nat → List MedicineItem → Nat → Option (List MedicineItem)
  | 0, _, _ => none
  | fuel + 1, heap, index =>
    let left := 2 * index + 1
    let right := 2 * index + 2
    match MinHeap.pickSmaller mktime heap left index with
    | none => none
    | some smallest =>
      match MinHeap.pickSmaller mktime heap right smallest with
      | none => none
      | some smallest =>
        if smallest ≠ index then
          match heap[index]?, heap[smallest]? with
          | some a, some b =>
            MinHeap.heapifyDownFuel mktime fuel ((heap.set index b).set smallest a) smallest
          | _, _ => none
        else some heap

/-- Method `MinHeap::heapifyDown`. -/
def MinHeap.heapifyDown (mktime : Tm → Int) (heap : List MedicineItem) (index : Nat) :
    Option (List MedicineItem) :=
  MinHeap.heapifyDownFuel mktime (heap.length + 1) heap index

/-- Method `MinHeap::insert`: `push_back`, then `heapifyUp(heap.size() - 1)`. -/
def MinHeap.insert (mktime : Tm → Int) (heap : List MedicineItem) (item : MedicineItem) :
    Option (List MedicineItem) :=
  let heap := heap ++ [item]
  MinHeap.heapifyUp mktime heap (heap.length - 1)

/-- Method `MinHeap::extractMin`: the value returned or the error raised, and the storage
after the call. -/
def MinHeap.extractMin (mktime : Tm → Int) (heap : List MedicineItem) :
    Except HeapError MedicineItem × List MedicineItem :=
  if heap.isEmpty then (.error .heapIsEmpty, heap)
  else
    match heap[0]?, heap.getLast? with
    | some minItem, some back =>
      let heap := (heap.set 0 back).dropLast
      if !heap.isEmpty then
        match MinHeap.heapifyDown mktime heap 0 with
        | some heap => (.ok minItem, heap)
        | none => (.error .undefinedBehaviour, heap)
      else (.ok minItem, heap)
    | _, _ => (.error .undefinedBehaviour, heap)

/-- Method `MinHeap::peek`: the value returned or the error raised, and the storage after
the call. -/
def MinHeap.peek (heap : List MedicineItem) :
    Except HeapError MedicineItem × List MedicineItem :=
  if heap.isEmpty then (.error .heapIsEmpty, heap)
  else
    match heap[0]? with
    | some item => (.ok item, heap)
    | none => (.error .undefinedBehaviour, heap)

/-- Insertion step of the sort: `x` goes before the first element it is smaller than. -/
def sortInsert (comp : MedicineItem → MedicineItem → Bool) (x : MedicineItem) :
    List MedicineItem → List MedicineItem
  | [] => [x]
  | y :: ys => if comp x y then x :: y :: ys else y :: sortInsert comp x ys

/-- The call `std::sort(begin, end, comp)`, a library routine: an insertion sort driven
by the comparator `comp` of the caller. -/
def stdSort (comp : MedicineItem → MedicineItem → Bool) :
    List MedicineItem → List MedicineItem
  | [] => []
  | x :: xs => sortInsert comp x (stdSort comp xs)

/-- Method `MinHeap::getSortedItems`: the sorted copy that is returned, and the storage
after the call. -/
def MinHeap.getSortedItems (mktime : Tm → Int) (heap : List MedicineItem) :
    List MedicineItem × List MedicineItem :=
  let sortedItems := heap
  let sortedItems := stdSort
    (fun a b => decide (a.getExpiryTime mktime < b.getExpiryTime mktime)) sortedItems
  (sortedItems, heap)

/-- Method `MinHeap::isEmpty`. -/
def MinHeap.isEmpty (heap : List MedicineItem) : Bool := heap.isEmpty

/-- Method `MinHeap::size`. -/
def MinHeap.size (heap : List MedicineItem) : Nat := heap.length

/-- Method `MinHeap::clear`. -/
def MinHeap.clear (_heap : List MedicineItem) : List MedicineItem := []

/-- The loop `while (!heap.isEmpty()) { auto med = heap.extractMin(); ... }` of
`test_minheap`, with a bound on the number of rounds: the records in the order in which
they are extracted. -/
def drainFuel (mktime : Tm → Int) : Nat → List MedicineItem → Option (List MedicineItem)
  | 0, heap => if MinHeap.isEmpty heap then some [] else none
  | fuel + 1, heap =>
    if MinHeap.isEmpty heap then some []
    else
      match MinHeap.extractMin mktime heap with
      | (.ok med, heap) => (drainFuel mktime fuel heap).map (fun out => med :: out)
      | (.error _, _) => none

/-- The extraction loop of `test_minheap`. -/
def drain (mktime : Tm → Int) (heap : List MedicineItem) : Option (List MedicineItem) :=
  drainFuel mktime heap.length heap

/-- The record `med1` of `test_minheap`. -/
def med1 : MedicineItem := ⟨1, "Aspirin", "Bayer", 100, "2024-06-30"⟩

/-- The record `med2` of `test_minheap`. -/
def med2 : MedicineItem := ⟨2, "Ibuprofen", "Advil", 50, "2023-12-10"⟩

/-- The record `med3` of `test_minheap`. -/
def med3 : MedicineItem := ⟨3, "Paracetamol", "Tylenol", 75, "2024-01-15"⟩

/-! ## Notions used to state the properties -/

/-- Lowercase form of a string. -/
def lower (s : Str) : Str := s.map tolower

/-- Strict lexicographic order of `std::string`: the bytes are compared as
`unsigned char`, that is by their codes. -/
abbrev StrLt : Str → Str → Prop := List.Lex (fun a b : Char => a < b)

/-- Strict lexicographic order over the key order of the children maps: the bytes are
compared as `char`. -/
abbrev KeyStrLt : Str → Str → Prop :=
  List.Lex (fun a b : Char => charValue a < charValue b)

/-- Every byte of the string is below `128`. -/
abbrev IsAscii (s : Str) : Prop := ∀ c ∈ s, c.toNat < 128

/-- Keys of a children map, in the order of iteration. -/
def Children.keys : Children → List Char
  | .nil => []
  | .cons k _ rest => k :: rest.keys

mutual
/-- Every children map below the node lists its keys in strictly ascending order, which
is the representation invariant of `std::map`. -/
def TrieNode.Ordered : TrieNode → Prop
  | .mk _ m => m.Ordered
/-- The entries are in strictly ascending key order, and so are the maps below them. -/
def Children.Ordered : Children → Prop
  | .nil => True
  | .cons k child rest =>
    child.Ordered ∧ rest.Ordered ∧ ∀ k' ∈ rest.keys, charValue k < charValue k'
end

mutual
/-- Suffixes spelled by the paths from the node to a terminal node, in visiting order. -/
def TrieNode.words : TrieNode → List Str
  | .mk e m => (if e then [[]] else []) ++ m.words
/-- Suffixes spelled through the entries of a children map, in visiting order. -/
def Children.words : Children → List Str
  | .nil => []
  | .cons k child rest => child.words.map (fun s => k :: s) ++ rest.words
end

/-- The characters of `w`, taken as they are, lead from the node to a terminal node. -/
def Trie.contains (node : TrieNode) (w : Str) : Bool :=
  match Trie.walk node w with
  | none => false
  | some n => n.isEndOfWord

/-- Ordering key of the record at position `j`, and `0` outside the storage. -/
def keyAt (mktime : Tm → Int) (heap : List MedicineItem) (j : Nat) : Int :=
  match heap[j]? with
  | some a => a.getExpiryTime mktime
  | none => 0

/-- Heap order in terms of `keyAt`. -/
def HeapOrd (mktime : Tm → Int) (heap : List MedicineItem) : Prop :=
  ∀ j, 0 < j → j < heap.length → keyAt mktime heap ((j - 1) / 2) ≤ keyAt mktime heap j

/-- Heap order everywhere except between position `i` and its parent; the children of
`i` are already above the parent of `i`. This is what `heapifyUp(i)` starts from. -/
def UpInv (mktime : Tm → Int) (heap : List MedicineItem) (i : Nat) : Prop :=
  (∀ j, 0 < j → j < heap.length → j ≠ i →
      keyAt mktime heap ((j - 1) / 2) ≤ keyAt mktime heap j) ∧
  (∀ j, 0 < j → j < heap.length → (j - 1) / 2 = i → 0 < i →
      keyAt mktime heap ((i - 1) / 2) ≤ keyAt mktime heap j)

/-- Heap order everywhere except between position `i` and its children; the children of
`i` are already above the parent of `i`. This is what `heapifyDown(i)` starts from. -/
def DownInv (mktime : Tm → Int) (heap : List MedicineItem) (i : Nat) : Prop :=
  (∀ j, 0 < j → j < heap.length → (j - 1) / 2 ≠ i →
      keyAt mktime heap ((j - 1) / 2) ≤ keyAt mktime heap j) ∧
  (∀ j, 0 < j → j < heap.length → (j - 1) / 2 = i → 0 < i →
      keyAt mktime heap ((i - 1) / 2) ≤ keyAt mktime heap j)

/-- The min-heap property: at every position `i` with `0 < i < size` there is a record,
there is one at the parent position `(i - 1) / 2`, and the key of the parent is at most
the key at `i`. -/
def MinHeapProperty (mktime : Tm → Int) (heap : List MedicineItem) : Prop :=
  ∀ i, 0 < i → i < MinHeap.size heap →
    ∃ a b, heap[i]? = some a ∧ heap[(i - 1) / 2]? = some b ∧
      b.getExpiryTime mktime ≤ a.getExpiryTime mktime

/-- The keys of a sequence of records are in non-decreasing order. -/
def KeysAscending (mktime : Tm → Int) (items : List MedicineItem) : Prop :=
  items.Pairwise (fun a b => a.getExpiryTime mktime ≤ b.getExpiryTime mktime)

/-- Storages reached from the default-constructed heap by calls of `insert`,
`extractMin` (whether it returns or throws) and `clear`. -/
inductive Reachable (mktime : Tm → Int) : List MedicineItem → Prop where
  | new : Reachable mktime []
  | insert (heap : List MedicineItem) (item : MedicineItem) (heap' : List MedicineItem) :
      Reachable mktime heap → MinHeap.insert mktime heap item = some heap' →
      Reachable mktime heap'
  | extractMin (heap : List MedicineItem) :
      Reachable mktime heap → Reachable mktime (MinHeap.extractMin mktime heap).2
  | clear (heap : List MedicineItem) :
      Reachable mktime heap → Reachable mktime (MinHeap.clear heap)

/-- A call made by a client that counts its calls. -/
inductive Call where
  | insert (item : MedicineItem)
  | extractMin

/-- Whether the call is an `insert`. -/
def Call.isInsert : Call → Bool
  | .insert _ => true
  | .extractMin => false

/-- The storage together with the number of `insert` calls and the number of
`extractMin` calls that returned a record. -/
structure Tally where
  heap : List MedicineItem
  inserts : Nat
  extracts : Nat

/-- Make one call and count it; an `extractMin` that throws is not counted. -/
def Tally.step (mktime : Tm → Int) (t : Tally) : Call → Option Tally
  | .insert item =>
    match MinHeap.insert mktime t.heap item with
    | some heap => some ⟨heap, t.inserts + 1, t.extracts⟩
    | none => none
  | .extractMin =>
    match MinHeap.extractMin mktime t.heap with
    | (.ok _, heap) => some ⟨heap, t.inserts, t.extracts + 1⟩
    | (.error _, heap) => some ⟨heap, t.inserts, t.extracts⟩

/-- Make the calls one after the other. -/
def Tally.run (mktime : Tm → Int) : List Call → Tally → Option Tally
  | [], t => some t
  | c :: cs, t =>
    match t.step mktime c with
    | some t' => Tally.run mktime cs t'
    | none => none

mutual
/-- No dead branch below the node: every node strictly below it that has no children is
terminal. -/
def TrieNode.NoDeadBranch : TrieNode → Prop
  | .mk _ m => m.NoDeadBranch
/-- Every child in the map that has no children is terminal, and there is no dead branch
below it. -/
def Children.NoDeadBranch : Children → Prop
  | .nil => True
  | .cons _ child rest =>
    (child.children = Children.nil → child.isEndOfWord = true) ∧ child.NoDeadBranch ∧
      rest.NoDeadBranch
end

/-- A record with the expiry date of `med2`, for the examples with equal keys. -/
def med4 : MedicineItem := ⟨4, "Ibuprofen", "Nurofen", 20, "2023-12-10"⟩

/-! ## The prefix tree: lemmas -/

theorem charValue_injective (a b : Char) (h : charValue a = charValue b) : a = b := by
  have ht : a.toNat = b.toNat := by
    unfold charValue at h
    split_ifs at h <;> omega
  rw [← Char.ofNat_toNat a, ← Char.ofNat_toNat b, ht]

theorem charValue_ne {a b : Char} (h : a ≠ b) : charValue a ≠ charValue b :=
  fun e => h (charValue_injective a b e)

theorem charValue_ascii (c : Char) (h : c.toNat < 128) : charValue c = (c.toNat : Int) := by
  unfold charValue
  rw [if_neg (by omega)]

theorem find_set : ∀ (m : Children) (c c' : Char) (n : TrieNode),
    (m.set c n).find c' = if c' = c then some n else m.find c'
  | .nil, c, c', n => by simp [Children.set, Children.find]
  | .cons k child rest, c, c', n => by
    have ih := find_set rest c c' n
    simp only [Children.set]
    by_cases h1 : charValue c < charValue k
    · simp [h1, Children.find]
    · by_cases h2 : c = k
      · subst h2
        by_cases h3 : c' = c <;> simp [Children.find, h3]
      · simp only [h1, h2, if_false, Children.find, ih]
        by_cases h3 : c' = k
        · have : c' ≠ c := fun h => h2 (h ▸ h3)
          simp [h3, Ne.symm h2]
        · simp [h3]

theorem contains_nil (node : TrieNode) : Trie.contains node [] = node.isEndOfWord := rfl

theorem contains_cons (node : TrieNode) (c : Char) (w : Str) :
    Trie.contains node (c :: w) =
      match node.children.find c with
      | none => false
      | some child => Trie.contains child w := by
  unfold Trie.contains
  simp only [Trie.walk]
  cases node.children.find c <;> rfl

theorem search_eq_contains : ∀ (s : Str) (node : TrieNode),
    Trie.search node s = Trie.contains node (s.map tolower)
  | [], node => rfl
  | ch :: rest, node => by
    simp only [Trie.search, List.map_cons, contains_cons]
    cases h : node.children.find (tolower ch) with
    | none => rfl
    | some child => exact search_eq_contains rest child

theorem contains_leaf (s : Str) : Trie.contains TrieNode.new s = false := by
  cases s with
  | nil => rfl
  | cons c r => simp [contains_cons, TrieNode.new, TrieNode.children, Children.find]

theorem contains_insert : ∀ (w : Str) (node : TrieNode) (s : Str),
    Trie.contains (Trie.insert node w) s = (decide (s = w.map tolower) || Trie.contains node s)
  | [], node, s => by
    cases s with
    | nil => simp [Trie.insert, contains_nil, TrieNode.isEndOfWord]
    | cons c r => simp [Trie.insert, contains_cons, TrieNode.children]
  | ch :: rest, .mk e m, s => by
    cases s with
    | nil => simp [Trie.insert, contains_nil, TrieNode.isEndOfWord]
    | cons c r =>
      simp only [Trie.insert, contains_cons, TrieNode.children, find_set, List.map_cons]
      by_cases hc : c = tolower ch
      · subst hc
        simp only [if_true]
        rw [contains_insert rest]
        cases h : m.find (tolower ch) with
        | none => simp [contains_leaf]
        | some child => simp
      · simp [hc]

theorem contains_foldl : ∀ (ws : List Str) (t : TrieNode) (s : Str),
    Trie.contains (ws.foldl Trie.insert t) s = true ↔ Trie.contains t s = true ∨ s ∈ ws.map (List.map tolower)
  | [], t, s => by simp
  | w :: ws, t, s => by
    rw [List.foldl_cons, contains_foldl ws, contains_insert]
    simp only [Bool.or_eq_true, decide_eq_true_eq, List.map_cons, List.mem_cons]
    tauto

theorem contains_new (s : Str) : Trie.contains Trie.new s = false := contains_leaf s

theorem search_build (ws : List Str) (s : Str) :
    Trie.search (Trie.insertAll ws) s = true ↔ s.map tolower ∈ ws.map (List.map tolower) := by
  rw [search_eq_contains, Trie.insertAll, contains_foldl, contains_new]
  simp


mutual
theorem dfs_eq_words : ∀ (node : TrieNode) (pre : Str) (results : List Str),
    Trie.dfs node pre results = results ++ node.words.map (fun s => pre ++ s)
  | .mk e m, pre, results => by
    rw [Trie.dfs, dfsLoop_eq_words m, TrieNode.words]
    cases e <;> simp
theorem dfsLoop_eq_words : ∀ (m : Children) (pre : Str) (results : List Str),
    Trie.dfsChildren m pre results = results ++ m.words.map (fun s => pre ++ s)
  | .nil, pre, results => by simp [Trie.dfsChildren, Children.words]
  | .cons k child rest, pre, results => by
    rw [Trie.dfsChildren, dfs_eq_words child, dfsLoop_eq_words rest, Children.words]
    simp [List.map_append, Function.comp_def]
end

theorem mem_childrenWords_head : ∀ (m : Children) (w : Str), w ∈ m.words →
    ∃ k s, k ∈ m.keys ∧ w = k :: s
  | .nil, w, h => by simp [Children.words] at h
  | .cons k child rest, w, h => by
    simp only [Children.words, List.mem_append, List.mem_map] at h
    rcases h with ⟨s, _, rfl⟩ | h
    · exact ⟨k, s, by simp [Children.keys], rfl⟩
    · obtain ⟨k', s, hk, rfl⟩ := mem_childrenWords_head rest w h
      exact ⟨k', s, by simp [Children.keys, hk], rfl⟩

theorem find_eq_none_of_lt : ∀ (m : Children) (c : Char),
    (∀ k ∈ m.keys, charValue c < charValue k) → m.find c = none
  | .nil, _, _ => rfl
  | .cons k child rest, c, h => by
    have h1 : charValue c < charValue k := h k (by simp [Children.keys])
    have h2 : c ≠ k := fun e => by
      rw [e] at h1
      exact lt_irrefl _ h1
    simp only [Children.find, h2, if_false]
    exact find_eq_none_of_lt rest c (fun k' hk' => h k' (by simp [Children.keys, hk']))

mutual
theorem mem_words_iff : ∀ (node : TrieNode), node.Ordered → ∀ (w : Str),
    (w ∈ node.words ↔ Trie.contains node w = true)
  | .mk e m, ho, w => by
    rw [TrieNode.Ordered] at ho
    have ih := mem_childrenWords_iff m ho
    cases w with
    | nil =>
      have hn : ([] : Str) ∉ m.words := fun h => by
        obtain ⟨k, s, _, h'⟩ := mem_childrenWords_head m [] h
        cases h'
      cases e <;> simp [TrieNode.words, contains_nil, TrieNode.isEndOfWord, hn]
    | cons c r =>
      rw [contains_cons, TrieNode.children]
      rw [TrieNode.words, List.mem_append, ih c r]
      cases e <;> simp
theorem mem_childrenWords_iff : ∀ (m : Children), m.Ordered → ∀ (c : Char) (r : Str),
    (c :: r ∈ m.words ↔
      (match m.find c with
       | none => false
       | some child => Trie.contains child r) = true)
  | .nil, _, c, r => by simp [Children.words, Children.find]
  | .cons k child rest, ho, c, r => by
    rw [Children.Ordered] at ho
    obtain ⟨hc, hr, hk⟩ := ho
    have ih1 := mem_words_iff child hc r
    have ih2 := mem_childrenWords_iff rest hr c r
    simp only [Children.words, List.mem_append, List.mem_map, List.cons.injEq, Children.find]
    by_cases h : c = k
    · subst h
      have hnone : rest.find c = none := find_eq_none_of_lt rest c hk
      rw [hnone] at ih2
      simp only [if_true]
      rw [← ih1]
      constructor
      · rintro (⟨s, hs, _, rfl⟩ | h')
        · exact hs
        · exact absurd (ih2.mp h') (by simp)
      · intro h'
        exact Or.inl ⟨r, h', trivial, rfl⟩
    · simp only [h, if_false]
      rw [← ih2]
      constructor
      · rintro (⟨s, _, h', _⟩ | h')
        · exact absurd h'.symm h
        · exact h'
      · intro h'
        exact Or.inr h'
end

mutual
theorem words_sorted : ∀ (node : TrieNode), node.Ordered → node.words.Pairwise KeyStrLt
  | .mk e m, ho => by
    rw [TrieNode.Ordered] at ho
    have ih := childrenWords_sorted m ho
    rw [TrieNode.words]
    cases e
    · simpa using ih
    · simp only [if_true, List.singleton_append, List.pairwise_cons]
      refine ⟨fun w hw => ?_, ih⟩
      obtain ⟨k, s, _, rfl⟩ := mem_childrenWords_head m w hw
      exact List.Lex.nil
theorem childrenWords_sorted : ∀ (m : Children), m.Ordered → m.words.Pairwise KeyStrLt
  | .nil, _ => by simp [Children.words]
  | .cons k child rest, ho => by
    rw [Children.Ordered] at ho
    obtain ⟨hc, hr, hk⟩ := ho
    have ih1 := words_sorted child hc
    have ih2 := childrenWords_sorted rest hr
    rw [Children.words, List.pairwise_append]
    refine ⟨?_, ih2, ?_⟩
    · rw [List.pairwise_map]
      exact ih1.imp (fun h => List.Lex.cons h)
    · intro a ha b hb
      obtain ⟨s, _, rfl⟩ := List.mem_map.mp ha
      obtain ⟨k', s', hk', rfl⟩ := mem_childrenWords_head rest b hb
      exact List.Lex.rel (hk k' hk')
end


theorem keys_set : ∀ (m : Children) (c : Char) (n : TrieNode) (k' : Char),
    k' ∈ (m.set c n).keys ↔ k' = c ∨ k' ∈ m.keys
  | .nil, c, n, k' => by simp [Children.set, Children.keys]
  | .cons k child rest, c, n, k' => by
    have ih := keys_set rest c n k'
    simp only [Children.set]
    by_cases h1 : charValue c < charValue k
    · simp [h1, Children.keys]
    · by_cases h2 : c = k
      · subst h2
        simp [Children.keys]
      · simp only [h1, h2, if_false, Children.keys, List.mem_cons, ih]
        tauto

theorem set_ordered : ∀ (m : Children) (c : Char) (n : TrieNode),
    m.Ordered → n.Ordered → (m.set c n).Ordered
  | .nil, c, n, _, hn => by
    simp [Children.set, Children.Ordered, Children.keys, hn]
  | .cons k child rest, c, n, hm, hn => by
    have hm' := hm
    rw [Children.Ordered] at hm'
    obtain ⟨hc, hr, hk⟩ := hm'
    simp only [Children.set]
    by_cases h1 : charValue c < charValue k
    · simp only [h1, if_true]
      rw [Children.Ordered]
      refine ⟨hn, hm, fun k' hk' => ?_⟩
      simp only [Children.keys, List.mem_cons] at hk'
      rcases hk' with rfl | hk'
      · exact h1
      · exact lt_trans h1 (hk k' hk')
    · by_cases h2 : c = k
      · subst h2
        simp only [h1, if_false, if_true]
        rw [Children.Ordered]
        exact ⟨hn, hr, hk⟩
      · simp only [h1, h2, if_false]
        rw [Children.Ordered]
        refine ⟨hc, set_ordered rest c n hr hn, fun k' hk' => ?_⟩
        rcases (keys_set rest c n k').mp hk' with rfl | hk'
        · exact lt_of_le_of_ne (not_lt.mp h1) (charValue_ne (Ne.symm h2))
        · exact hk k' hk'

theorem find_ordered : ∀ (m : Children) (c : Char) (child : TrieNode),
    m.Ordered → m.find c = some child → child.Ordered
  | .nil, c, child, _, h => by simp [Children.find] at h
  | .cons k ch rest, c, child, hm, h => by
    rw [Children.Ordered] at hm
    simp only [Children.find] at h
    by_cases hc : c = k
    · simp only [hc, if_true, Option.some.injEq] at h
      exact h ▸ hm.1
    · simp only [hc, if_false] at h
      exact find_ordered rest c child hm.2.1 h

theorem insert_ordered : ∀ (w : Str) (node : TrieNode),
    node.Ordered → (Trie.insert node w).Ordered
  | [], .mk e m, h => by
    simpa [Trie.insert, TrieNode.Ordered, TrieNode.children] using h
  | ch :: rest, .mk e m, h => by
    rw [TrieNode.Ordered] at h
    simp only [Trie.insert, TrieNode.children, TrieNode.Ordered]
    apply set_ordered _ _ _ h
    apply insert_ordered rest
    cases hf : m.find (tolower ch) with
    | none => simp [TrieNode.new, TrieNode.Ordered, Children.Ordered]
    | some child => exact find_ordered m _ child h hf

theorem walk_ordered : ∀ (w : Str) (node n : TrieNode),
    node.Ordered → Trie.walk node w = some n → n.Ordered
  | [], node, n, h, hf => by
    simp only [Trie.walk, Option.some.injEq] at hf
    exact hf ▸ h
  | c :: rest, .mk e m, n, h, hf => by
    rw [TrieNode.Ordered] at h
    simp only [Trie.walk, TrieNode.children] at hf
    cases hc : m.find c with
    | none => simp [hc] at hf
    | some child =>
      simp only [hc] at hf
      exact walk_ordered rest child n (find_ordered m c child h hc) hf

theorem contains_append : ∀ (p s : Str) (node : TrieNode),
    Trie.contains node (p ++ s) =
      match Trie.walk node p with
      | none => false
      | some n => Trie.contains n s
  | [], s, node => rfl
  | c :: p, s, node => by
    simp only [List.cons_append, contains_cons, Trie.walk]
    cases node.children.find c with
    | none => rfl
    | some child => exact contains_append p s child

theorem build_ordered : ∀ (ws : List Str) (t : TrieNode),
    t.Ordered → (ws.foldl Trie.insert t).Ordered
  | [], _, h => h
  | w :: ws, t, h => build_ordered ws _ (insert_ordered w t h)

theorem mem_startsWith_iff (t : TrieNode) (ht : t.Ordered) (p w : Str) :
    w ∈ Trie.startsWith t p ↔ p.map tolower <+: w ∧ Trie.contains t w = true := by
  unfold Trie.startsWith
  simp only
  cases hf : Trie.walk t (p.map tolower) with
  | none =>
    simp only [List.not_mem_nil, false_iff, not_and]
    rintro ⟨s, rfl⟩
    rw [contains_append, hf]
    simp
  | some n =>
    have hn := walk_ordered _ t n ht hf
    simp only [dfs_eq_words, List.nil_append, List.mem_map]
    constructor
    · rintro ⟨s, hs, rfl⟩
      refine ⟨List.prefix_append _ _, ?_⟩
      rw [contains_append, hf]
      exact (mem_words_iff n hn s).mp hs
    · rintro ⟨⟨s, rfl⟩, hc⟩
      rw [contains_append, hf] at hc
      exact ⟨s, (mem_words_iff n hn s).mpr hc, rfl⟩

theorem lex_append_left (p : Str) {a b : Str} (h : KeyStrLt a b) :
    KeyStrLt (p ++ a) (p ++ b) := by
  induction p with
  | nil => exact h
  | cons c p ih => exact List.Lex.cons ih

theorem startsWith_pairwise (t : TrieNode) (ht : t.Ordered) (p : Str) :
    (Trie.startsWith t p).Pairwise KeyStrLt := by
  unfold Trie.startsWith
  simp only
  cases hf : Trie.walk t (p.map tolower) with
  | none => simp
  | some n =>
    have hn := walk_ordered _ t n ht hf
    simp only [dfs_eq_words, List.nil_append, List.pairwise_map]
    exact (words_sorted n hn).imp (fun h => lex_append_left _ h)

theorem strLt_irrefl : ∀ (a : Str), ¬ KeyStrLt a a
  | [], h => by cases h
  | c :: a, h => by
    cases h with
    | cons h' => exact strLt_irrefl a h'
    | rel h' => exact lt_irrefl _ h'

/-! ## The min-heap: lemmas -/

theorem cons_set_perm {α : Type} : ∀ (xs : List α) (j : Nat) (x b : α),
    xs[j]? = some b → (b :: xs.set j x).Perm (x :: xs)
  | [], j, x, b, h => by simp at h
  | y :: ys, 0, x, b, h => by
    simp only [List.getElem?_cons_zero, Option.some.injEq] at h
    subst h
    simpa using List.Perm.swap x y ys
  | y :: ys, j + 1, x, b, h => by
    simp only [List.getElem?_cons_succ] at h
    have ih := cons_set_perm ys j x b h
    simp only [List.set_cons_succ]
    exact (List.Perm.swap y b _).trans (((ih.cons y)).trans (List.Perm.swap x y ys))

theorem swap_perm {α : Type} : ∀ (l : List α) (i j : Nat) (a b : α),
    l[i]? = some a → l[j]? = some b → ((l.set i b).set j a).Perm l
  | [], i, j, a, b, h, _ => by simp at h
  | x :: xs, 0, 0, a, b, h1, h2 => by
    simp only [List.getElem?_cons_zero, Option.some.injEq] at h1 h2
    subst h1
    simp
  | x :: xs, 0, j + 1, a, b, h1, h2 => by
    simp only [List.getElem?_cons_zero, Option.some.injEq, List.getElem?_cons_succ] at h1 h2
    subst h1
    simpa using cons_set_perm xs j x b h2
  | x :: xs, i + 1, 0, a, b, h1, h2 => by
    simp only [List.getElem?_cons_zero, Option.some.injEq, List.getElem?_cons_succ] at h1 h2
    subst h2
    simpa using cons_set_perm xs i x a h1
  | x :: xs, i + 1, j + 1, a, b, h1, h2 => by
    simp only [List.getElem?_cons_succ] at h1 h2
    simpa using (swap_perm xs i j a b h1 h2).cons x

theorem swap_getElem? {α : Type} (l : List α) (i p : Nat) (a b : α)
    (h1 : l[i]? = some a) (h2 : l[p]? = some b) (j : Nat) :
    ((l.set i b).set p a)[j]? = if j = p then some a else if j = i then some b else l[j]? := by
  have hi : i < l.length := (List.getElem?_eq_some.mp h1).1
  have hp : p < l.length := (List.getElem?_eq_some.mp h2).1
  rw [List.getElem?_set, List.getElem?_set]
  by_cases e1 : j = p
  · subst e1
    simp [hp]
  · by_cases e2 : j = i
    · subst e2
      simp [hi, Ne.symm e1, e1]
    · simp [Ne.symm e1, Ne.symm e2, e1, e2]

section
variable (mktime : Tm → Int)

theorem keyAt_of_getElem? {heap : List MedicineItem} {j : Nat} {a : MedicineItem}
    (h : heap[j]? = some a) : keyAt mktime heap j = a.getExpiryTime mktime := by
  simp [keyAt, h]

theorem keyAt_swap (heap : List MedicineItem) (i p : Nat) (a b : MedicineItem)
    (h1 : heap[i]? = some a) (h2 : heap[p]? = some b) (j : Nat) :
    keyAt mktime ((heap.set i b).set p a) j =
      if j = p then keyAt mktime heap i else if j = i then keyAt mktime heap p
      else keyAt mktime heap j := by
  unfold keyAt
  rw [swap_getElem? heap i p a b h1 h2 j, h1, h2]
  by_cases e1 : j = p
  · simp [e1]
  · by_cases e2 : j = i
    · subst e2
      simp [e1]
    · simp [e1, e2]

theorem heapifyUpFuel_eq (fuel : Nat) (heap : List MedicineItem) (index : Nat) :
    MinHeap.heapifyUpFuel mktime (fuel + 1) heap index =
      if index > 0 then
        match heap[index]?, heap[(index - 1) / 2]? with
        | some a, some b =>
          if a.getExpiryTime mktime < b.getExpiryTime mktime then
            MinHeap.heapifyUpFuel mktime fuel ((heap.set index b).set ((index - 1) / 2) a) ((index - 1) / 2)
          else some heap
        | _, _ => none
      else some heap := rfl

theorem heapifyUpFuel_perm : ∀ (fuel : Nat) (heap : List MedicineItem) (i : Nat)
    (h' : List MedicineItem), MinHeap.heapifyUpFuel mktime fuel heap i = some h' → h'.Perm heap
  | 0, heap, i, h', h => by simp [MinHeap.heapifyUpFuel] at h
  | fuel + 1, heap, i, h', h => by
    rw [heapifyUpFuel_eq] at h
    split at h
    · split at h
      · rename_i a b ha hb
        split at h
        · exact (heapifyUpFuel_perm fuel _ _ h' h).trans (swap_perm heap _ _ a b ha hb)
        · simp only [Option.some.injEq] at h
          exact h ▸ List.Perm.refl _
      · simp at h
    · simp only [Option.some.injEq] at h
      exact h ▸ List.Perm.refl _

theorem heapifyUpFuel_isSome : ∀ (fuel : Nat) (heap : List MedicineItem) (i : Nat),
    i < fuel → i < heap.length → (MinHeap.heapifyUpFuel mktime fuel heap i).isSome = true
  | 0, heap, i, h, _ => by omega
  | fuel + 1, heap, i, hf, hi => by
    rw [heapifyUpFuel_eq]
    split
    · rename_i hpos
      have hp : (i - 1) / 2 < heap.length := by omega
      rw [List.getElem?_eq_getElem hi, List.getElem?_eq_getElem hp]
      simp only
      split
      · apply heapifyUpFuel_isSome fuel
        · omega
        · simpa using hp
      · rfl
    · rfl

theorem heapifyUpFuel_ord : ∀ (fuel : Nat) (heap : List MedicineItem) (i : Nat)
    (h' : List MedicineItem), MinHeap.heapifyUpFuel mktime fuel heap i = some h' →
    UpInv mktime heap i → HeapOrd mktime h'
  | 0, heap, i, h', h, _ => by simp [MinHeap.heapifyUpFuel] at h
  | fuel + 1, heap, i, h', h, inv => by
    rw [heapifyUpFuel_eq] at h
    obtain ⟨inv1, inv2⟩ := inv
    split at h
    · rename_i hpos
      split at h
      · rename_i a b ha hb
        have hi : i < heap.length := (List.getElem?_eq_some.mp ha).1
        have ka := keyAt_of_getElem? mktime ha
        have kb := keyAt_of_getElem? mktime hb
        split at h
        · rename_i hlt
          rw [← ka, ← kb] at hlt
          apply heapifyUpFuel_ord fuel _ _ h' h
          have hlen : ((heap.set i b).set ((i - 1) / 2) a).length = heap.length := by simp
          constructor
          · intro j hj hjn hne
            rw [hlen] at hjn
            rw [keyAt_swap mktime heap i _ a b ha hb, keyAt_swap mktime heap i _ a b ha hb]
            simp only [hne, if_false]
            have hjp : (j - 1) / 2 ≠ j := by omega
            by_cases e1 : j = i
            · subst e1
              simp only [if_true]
              exact le_of_lt hlt
            · simp only [e1, if_false]
              by_cases e2 : (j - 1) / 2 = (i - 1) / 2
              · simp only [e2, if_true]
                have := inv1 j hj hjn e1
                rw [e2] at this
                exact le_trans (le_of_lt hlt) this
              · simp only [e2, if_false]
                by_cases e3 : (j - 1) / 2 = i
                · simp only [e3, if_true]
                  have := inv2 j hj hjn e3 hpos
                  exact this
                · simp only [e3, if_false]
                  exact inv1 j hj hjn e1
          · intro j hj hjn hpar hp0
            rw [hlen] at hjn
            rw [keyAt_swap mktime heap i _ a b ha hb, keyAt_swap mktime heap i _ a b ha hb]
            have e1 : ((i - 1) / 2 - 1) / 2 ≠ (i - 1) / 2 := by omega
            have e2 : ((i - 1) / 2 - 1) / 2 ≠ i := by omega
            have e3 : j ≠ (i - 1) / 2 := by omega
            simp only [e1, e2, e3, if_false]
            have hpp := inv1 ((i - 1) / 2) hp0 (by omega) (by omega)
            by_cases e4 : j = i
            · simp only [e4, if_true]
              exact hpp
            · simp only [e4, if_false]
              have := inv1 j hj hjn e4
              rw [hpar] at this
              exact le_trans hpp this
        · rename_i hge
          simp only [Option.some.injEq] at h
          subst h
          intro j hj hjn
          by_cases e : j = i
          · subst e
            rw [ka, kb]
            exact not_lt.mp hge
          · exact inv1 j hj hjn e
      · simp at h
    · rename_i hz
      simp only [Option.some.injEq] at h
      subst h
      intro j hj hjn
      exact inv1 j hj hjn (by omega)


theorem pickSmaller_spec (heap : List MedicineItem) (c s0 s : Nat)
    (h : MinHeap.pickSmaller mktime heap c s0 = some s) :
    (c < heap.length ∧ s0 < heap.length ∧
      ((s = c ∧ keyAt mktime heap c < keyAt mktime heap s0) ∨
       (s = s0 ∧ keyAt mktime heap s0 ≤ keyAt mktime heap c))) ∨
    (heap.length ≤ c ∧ s = s0) := by
  unfold MinHeap.pickSmaller at h
  split at h
  · rename_i hc
    left
    split at h
    · rename_i a b ha hb
      have hs0 : s0 < heap.length := (List.getElem?_eq_some.mp hb).1
      rw [keyAt_of_getElem? mktime ha, keyAt_of_getElem? mktime hb]
      refine ⟨hc, hs0, ?_⟩
      split at h
      · rename_i hlt
        simp only [Option.some.injEq] at h
        exact Or.inl ⟨h.symm, hlt⟩
      · rename_i hge
        simp only [Option.some.injEq] at h
        exact Or.inr ⟨h.symm, not_lt.mp hge⟩
    · simp at h
  · rename_i hc
    simp only [Option.some.injEq] at h
    exact Or.inr ⟨not_lt.mp hc, h.symm⟩

theorem pickSmaller_isSome (heap : List MedicineItem) (c s0 : Nat) (h0 : s0 < heap.length) :
    ∃ s, MinHeap.pickSmaller mktime heap c s0 = some s := by
  unfold MinHeap.pickSmaller
  split
  · rename_i hc
    rw [List.getElem?_eq_getElem hc, List.getElem?_eq_getElem h0]
    simp only
    split
    · exact ⟨_, rfl⟩
    · exact ⟨_, rfl⟩
  · exact ⟨_, rfl⟩

theorem pickSmaller_outside (heap : List MedicineItem) (c s0 : Nat) (hc : heap.length ≤ c) :
    MinHeap.pickSmaller mktime heap c s0 = some s0 := by
  unfold MinHeap.pickSmaller
  simp [Nat.not_lt.mpr hc]

theorem heapifyDownFuel_eq (fuel : Nat) (heap : List MedicineItem) (index : Nat) :
    MinHeap.heapifyDownFuel mktime (fuel + 1) heap index =
      match MinHeap.pickSmaller mktime heap (2 * index + 1) index with
      | none => none
      | some smallest =>
        match MinHeap.pickSmaller mktime heap (2 * index + 2) smallest with
        | none => none
        | some smallest =>
          if smallest ≠ index then
            match heap[index]?, heap[smallest]? with
            | some a, some b =>
              MinHeap.heapifyDownFuel mktime fuel ((heap.set index b).set smallest a) smallest
            | _, _ => none
          else some heap := rfl

theorem heapifyDownFuel_perm : ∀ (fuel : Nat) (heap : List MedicineItem) (i : Nat)
    (h' : List MedicineItem), MinHeap.heapifyDownFuel mktime fuel heap i = some h' → h'.Perm heap
  | 0, heap, i, h', h => by simp [MinHeap.heapifyDownFuel] at h
  | fuel + 1, heap, i, h', h => by
    rw [heapifyDownFuel_eq] at h
    split at h
    · simp at h
    · split at h
      · simp at h
      · split at h
        · split at h
          · rename_i a b ha hb
            exact (heapifyDownFuel_perm fuel _ _ h' h).trans (swap_perm heap _ _ a b ha hb)
          · simp at h
        · simp only [Option.some.injEq] at h
          exact h ▸ List.Perm.refl _

theorem heapifyDownFuel_isSome : ∀ (fuel : Nat) (heap : List MedicineItem) (i : Nat),
    0 < fuel → heap.length < fuel + i → ∃ h', MinHeap.heapifyDownFuel mktime fuel heap i = some h'
  | 0, heap, i, h, _ => by omega
  | fuel + 1, heap, i, _, hf => by
    rw [heapifyDownFuel_eq]
    by_cases hi : i < heap.length
    · obtain ⟨s1, e1⟩ := pickSmaller_isSome mktime heap (2 * i + 1) i hi
      have p1 := pickSmaller_spec mktime heap _ _ _ e1
      have hs1 : s1 < heap.length := by omega
      obtain ⟨s2, e2⟩ := pickSmaller_isSome mktime heap (2 * i + 2) s1 hs1
      have p2 := pickSmaller_spec mktime heap _ _ _ e2
      have hs2 : s2 < heap.length := by omega
      rw [e1]
      simp only
      rw [e2]
      simp only
      split
      · rename_i hne
        have hgt : i < s2 := by omega
        rw [List.getElem?_eq_getElem hi, List.getElem?_eq_getElem hs2]
        simp only
        apply heapifyDownFuel_isSome fuel
        · omega
        · simp only [List.length_set]
          omega
      · exact ⟨_, rfl⟩
    · rw [pickSmaller_outside mktime heap _ _ (by omega)]
      simp only
      rw [pickSmaller_outside mktime heap _ _ (by omega)]
      simp

theorem heapifyDownFuel_ord : ∀ (fuel : Nat) (heap : List MedicineItem) (i : Nat)
    (h' : List MedicineItem), MinHeap.heapifyDownFuel mktime fuel heap i = some h' →
    i < heap.length → DownInv mktime heap i → HeapOrd mktime h'
  | 0, heap, i, h', h, _, _ => by simp [MinHeap.heapifyDownFuel] at h
  | fuel + 1, heap, i, h', h, hi, inv => by
    rw [heapifyDownFuel_eq] at h
    obtain ⟨inv1, inv2⟩ := inv
    split at h
    · simp at h
    · rename_i s1 e1
      have p1 := pickSmaller_spec mktime heap _ _ _ e1
      split at h
      · simp at h
      · rename_i s2 e2
        have p2 := pickSmaller_spec mktime heap _ _ _ e2
        -- facts about the selected position
        have hs2 : s2 < heap.length := by omega
        have hsel : s2 = i ∨ s2 = 2 * i + 1 ∨ s2 = 2 * i + 2 := by omega
        have hle_i : keyAt mktime heap s2 ≤ keyAt mktime heap i := by
          rcases p1 with ⟨_, _, ⟨rfl, k1⟩ | ⟨rfl, k1⟩⟩ | ⟨_, rfl⟩ <;>
          rcases p2 with ⟨_, _, ⟨rfl, k2⟩ | ⟨rfl, k2⟩⟩ | ⟨_, rfl⟩ <;>
          first | exact le_refl _ | exact le_of_lt k1 | exact le_of_lt (lt_trans k2 k1)
                | exact le_of_lt k2
        have hlt_i : s2 ≠ i → keyAt mktime heap s2 < keyAt mktime heap i := by
          intro hne
          rcases p1 with ⟨_, _, ⟨rfl, k1⟩ | ⟨rfl, k1⟩⟩ | ⟨_, rfl⟩ <;>
          rcases p2 with ⟨_, _, ⟨rfl, k2⟩ | ⟨rfl, k2⟩⟩ | ⟨_, rfl⟩ <;>
          first | exact absurd rfl hne | exact k1 | exact lt_trans k2 k1 | exact k2
        have hle_l : 2 * i + 1 < heap.length →
            keyAt mktime heap s2 ≤ keyAt mktime heap (2 * i + 1) := by
          intro hl
          rcases p1 with ⟨_, _, ⟨rfl, k1⟩ | ⟨rfl, k1⟩⟩ | ⟨hno, rfl⟩ <;>
          rcases p2 with ⟨_, _, ⟨rfl, k2⟩ | ⟨rfl, k2⟩⟩ | ⟨_, rfl⟩ <;>
          first | exact le_refl _ | exact le_of_lt k2 | exact k1
                | exact le_trans (le_of_lt k2) k1 | omega
        have hle_r : 2 * i + 2 < heap.length →
            keyAt mktime heap s2 ≤ keyAt mktime heap (2 * i + 2) := by
          intro hr
          rcases p2 with ⟨_, _, ⟨rfl, k2⟩ | ⟨rfl, k2⟩⟩ | ⟨hno, rfl⟩ <;>
          first | exact le_refl _ | exact k2 | omega
        split at h
        · rename_i hne
          split at h
          · rename_i a b ha hb
            apply heapifyDownFuel_ord fuel _ _ h' h
            · simpa using hs2
            have hlen : ((heap.set i b).set s2 a).length = heap.length := by simp
            have hpar : (s2 - 1) / 2 = i := by omega
            constructor
            · intro j hj hjn hps
              rw [hlen] at hjn
              rw [keyAt_swap mktime heap i _ a b ha hb, keyAt_swap mktime heap i _ a b ha hb]
              simp only [hps, if_false]
              by_cases e1 : j = s2
              · subst e1
                simp only [if_true, hpar]
                exact le_of_lt (hlt_i hne)
              · simp only [e1, if_false]
                by_cases e2 : j = i
                · subst e2
                  have e3 : (j - 1) / 2 ≠ j := by omega
                  simp only [if_true, e3, if_false]
                  exact inv2 s2 (by omega) hs2 hpar hj
                · simp only [e2, if_false]
                  by_cases e3 : (j - 1) / 2 = i
                  · simp only [e3, if_true]
                    have hj2 : j = 2 * i + 1 ∨ j = 2 * i + 2 := by omega
                    rcases hj2 with rfl | rfl
                    · exact hle_l hjn
                    · exact hle_r hjn
                  · simp only [e3, if_false]
                    exact inv1 j hj hjn e3
            · intro j hj hjn hpj _
              rw [hlen] at hjn
              rw [keyAt_swap mktime heap i _ a b ha hb, keyAt_swap mktime heap i _ a b ha hb]
              have e1 : (s2 - 1) / 2 ≠ s2 := by omega
              have e2 : j ≠ s2 := by omega
              have e3 : j ≠ i := by omega
              have e4 : i ≠ s2 := Ne.symm hne
              simp only [e1, e2, e3, e4, hpar, if_true, if_false]
              have := inv1 j hj hjn (by omega)
              rw [hpj] at this
              exact this
          · simp at h
        · rename_i heq
          have heq' : s2 = i := not_not.mp heq
          simp only [Option.some.injEq] at h
          subst h
          rw [heq'] at hle_l hle_r
          intro j hj hjn
          by_cases e : (j - 1) / 2 = i
          · have hj2 : j = 2 * i + 1 ∨ j = 2 * i + 2 := by omega
            rw [e]
            rcases hj2 with rfl | rfl
            · exact hle_l hjn
            · exact hle_r hjn
          · exact inv1 j hj hjn e


theorem HeapOrd_nil : HeapOrd mktime [] := by
  intro j _ hj
  simp at hj

theorem keyAt_append_left (heap : List MedicineItem) (item : MedicineItem) (j : Nat)
    (hj : j < heap.length) : keyAt mktime (heap ++ [item]) j = keyAt mktime heap j := by
  unfold keyAt
  rw [List.getElem?_append_left hj]

theorem insert_isSome (heap : List MedicineItem) (item : MedicineItem) :
    ∃ h', MinHeap.insert mktime heap item = some h' := by
  have := heapifyUpFuel_isSome mktime ((heap ++ [item]).length - 1 + 1) (heap ++ [item])
    ((heap ++ [item]).length - 1) (by omega) (by simp)
  exact Option.isSome_iff_exists.mp this

theorem insert_perm (heap : List MedicineItem) (item : MedicineItem) (h' : List MedicineItem)
    (h : MinHeap.insert mktime heap item = some h') : h'.Perm (heap ++ [item]) :=
  heapifyUpFuel_perm mktime _ _ _ h' h

theorem insert_ord (heap : List MedicineItem) (item : MedicineItem) (h' : List MedicineItem)
    (h : MinHeap.insert mktime heap item = some h') (ho : HeapOrd mktime heap) : HeapOrd mktime h' := by
  apply heapifyUpFuel_ord mktime _ _ _ h' h
  have hl : (heap ++ [item]).length - 1 = heap.length := by simp
  rw [hl]
  constructor
  · intro j hj hjn hne
    have hjl : j < heap.length := by
      simp only [List.length_append, List.length_singleton] at hjn
      omega
    rw [keyAt_append_left mktime heap item j hjl,
      keyAt_append_left mktime heap item _ (by omega)]
    exact ho j hj hjl
  · intro j hj hjn hpar _
    simp only [List.length_append, List.length_singleton] at hjn
    omega

theorem root_le (heap : List MedicineItem) (ho : HeapOrd mktime heap) :
    ∀ j, j < heap.length → keyAt mktime heap 0 ≤ keyAt mktime heap j := by
  intro j
  induction j using Nat.strong_induction_on with
  | _ j ih =>
    intro hj
    by_cases h0 : j = 0
    · subst h0
      exact le_refl _
    · have hp : (j - 1) / 2 < j := by omega
      exact le_trans (ih _ hp (by omega)) (ho j (by omega) hj)

theorem root_le_mem (heap : List MedicineItem) (ho : HeapOrd mktime heap)
    (r x : MedicineItem) (hr : heap[0]? = some r) (hx : x ∈ heap) :
    r.getExpiryTime mktime ≤ x.getExpiryTime mktime := by
  obtain ⟨j, hj, rfl⟩ := List.getElem_of_mem hx
  have := root_le mktime heap ho j hj
  rw [keyAt_of_getElem? mktime hr,
    keyAt_of_getElem? mktime (List.getElem?_eq_getElem hj)] at this
  exact this

theorem extractMin_nil : MinHeap.extractMin mktime [] = (.error .heapIsEmpty, []) := rfl

theorem extractMin_single (m : MedicineItem) : MinHeap.extractMin mktime [m] = (.ok m, []) := rfl

theorem extractMin_cons_cons (m x : MedicineItem) (t : List MedicineItem) :
    MinHeap.extractMin mktime (m :: x :: t) =
      match MinHeap.heapifyDown mktime ((x :: t).getLast (List.cons_ne_nil _ _) :: (x :: t).dropLast) 0 with
      | some heap => (.ok m, heap)
      | none => (.error .undefinedBehaviour,
          (x :: t).getLast (List.cons_ne_nil _ _) :: (x :: t).dropLast) := by
  unfold MinHeap.extractMin
  simp only [List.isEmpty_cons, Bool.false_eq_true, if_false, List.getElem?_cons_zero]
  rw [List.getLast?_eq_getLast _ (List.cons_ne_nil _ _)]
  simp only [List.set_cons_zero, List.getLast_cons (List.cons_ne_nil x t)]
  simp [List.dropLast]

theorem extractMin_spec (m : MedicineItem) (t : List MedicineItem) :
    ∃ h', MinHeap.extractMin mktime (m :: t) = (.ok m, h') ∧ h'.Perm t ∧
      (HeapOrd mktime (m :: t) → HeapOrd mktime h') := by
  cases t with
  | nil => exact ⟨[], rfl, List.Perm.refl _, fun _ => HeapOrd_nil mktime⟩
  | cons x t =>
    rw [extractMin_cons_cons]
    obtain ⟨h', e⟩ := heapifyDownFuel_isSome mktime
      (((x :: t).getLast (List.cons_ne_nil _ _) :: (x :: t).dropLast).length + 1)
      ((x :: t).getLast (List.cons_ne_nil _ _) :: (x :: t).dropLast) 0 (by omega) (by omega)
    have e' : MinHeap.heapifyDown mktime
        ((x :: t).getLast (List.cons_ne_nil _ _) :: (x :: t).dropLast) 0 = some h' := e
    rw [e']
    refine ⟨h', rfl, ?_, ?_⟩
    · refine (heapifyDownFuel_perm mktime _ _ _ h' e).trans ?_
      have := List.dropLast_concat_getLast (List.cons_ne_nil x t)
      conv_rhs => rw [← this]
      exact (List.perm_append_singleton _ _).symm
    · intro ho
      apply heapifyDownFuel_ord mktime _ _ _ h' e (by simp)
      constructor
      · intro j hj hjn hpar
        have hlen : ((x :: t).getLast (List.cons_ne_nil _ _) :: (x :: t).dropLast).length
            = t.length + 1 := by simp
        rw [hlen] at hjn
        have key : ∀ k, 0 < k → k < t.length + 1 →
            keyAt mktime ((x :: t).getLast (List.cons_ne_nil _ _) :: (x :: t).dropLast) k
              = keyAt mktime (m :: x :: t) k := by
          intro k hk hkn
          unfold keyAt
          obtain ⟨k', rfl⟩ : ∃ k', k = k' + 1 := ⟨k - 1, by omega⟩
          rw [List.getElem?_cons_succ, List.getElem?_cons_succ, List.getElem?_dropLast]
          simp only [List.length_cons, Nat.add_sub_cancel]
          rw [if_pos (by omega)]
        rw [key j hj hjn, key _ (by omega) (by omega)]
        exact ho j hj (by simp only [List.length_cons]; omega)
      · intro j _ _ _ h0
        exact absurd h0 (lt_irrefl _)

end

section
variable (mktime : Tm → Int)

theorem minHeapProperty_of_heapOrd (heap : List MedicineItem) (ho : HeapOrd mktime heap) :
    MinHeapProperty mktime heap := by
  intro i h0 hi
  have hi' : i < heap.length := hi
  have hp : (i - 1) / 2 < heap.length := by omega
  refine ⟨heap[i], heap[(i - 1) / 2], List.getElem?_eq_getElem hi',
    List.getElem?_eq_getElem hp, ?_⟩
  have := ho i h0 hi'
  rw [keyAt_of_getElem? mktime (List.getElem?_eq_getElem hi'),
    keyAt_of_getElem? mktime (List.getElem?_eq_getElem hp)] at this
  exact this

theorem heapOrd_of_minHeapProperty (heap : List MedicineItem)
    (hm : MinHeapProperty mktime heap) : HeapOrd mktime heap := by
  intro j h0 hj
  obtain ⟨a, b, ha, hb, hab⟩ := hm j h0 hj
  rw [keyAt_of_getElem? mktime ha, keyAt_of_getElem? mktime hb]
  exact hab

theorem extractMin_ord (heap : List MedicineItem) (ho : HeapOrd mktime heap) :
    HeapOrd mktime (MinHeap.extractMin mktime heap).2 := by
  cases heap with
  | nil => exact ho
  | cons m t =>
    obtain ⟨h', e, _, hord⟩ := extractMin_spec mktime m t
    rw [e]
    exact hord ho

theorem reachable_ord (heap : List MedicineItem) (hr : Reachable mktime heap) :
    HeapOrd mktime heap := by
  induction hr with
  | new => exact HeapOrd_nil mktime
  | insert heap item heap' _ hins ih => exact insert_ord mktime heap item heap' hins ih
  | extractMin heap _ ih => exact extractMin_ord mktime heap ih
  | clear heap _ _ => exact HeapOrd_nil mktime

theorem sortInsert_perm (comp : MedicineItem → MedicineItem → Bool) (x : MedicineItem) :
    ∀ (l : List MedicineItem), (sortInsert comp x l).Perm (x :: l)
  | [] => List.Perm.refl _
  | y :: ys => by
    simp only [sortInsert]
    split
    · exact List.Perm.refl _
    · exact ((sortInsert_perm comp x ys).cons y).trans (List.Perm.swap x y ys)

theorem stdSort_perm (comp : MedicineItem → MedicineItem → Bool) :
    ∀ (l : List MedicineItem), (stdSort comp l).Perm l
  | [] => List.Perm.refl _
  | x :: xs => by
    simp only [stdSort]
    exact (sortInsert_perm comp x _).trans ((stdSort_perm comp xs).cons x)

theorem sortInsert_ascending (x : MedicineItem) : ∀ (l : List MedicineItem),
    KeysAscending mktime l →
    KeysAscending mktime
      (sortInsert (fun a b => decide (a.getExpiryTime mktime < b.getExpiryTime mktime)) x l)
  | [], _ => by simp [sortInsert, KeysAscending]
  | y :: ys, h => by
    unfold KeysAscending at h ⊢
    simp only [sortInsert]
    have hy := List.pairwise_cons.mp h
    split
    · rename_i hlt
      simp only [decide_eq_true_eq] at hlt
      refine List.pairwise_cons.mpr ⟨fun z hz => ?_, h⟩
      rcases List.mem_cons.mp hz with rfl | hz
      · exact le_of_lt hlt
      · exact le_trans (le_of_lt hlt) (hy.1 z hz)
    · rename_i hge
      simp only [decide_eq_true_eq, not_lt] at hge
      refine List.pairwise_cons.mpr ⟨fun z hz => ?_, sortInsert_ascending x ys hy.2⟩
      have hz' := (sortInsert_perm _ x ys).subset hz
      rcases List.mem_cons.mp hz' with rfl | hz'
      · exact hge
      · exact hy.1 z hz'

theorem stdSort_ascending : ∀ (l : List MedicineItem),
    KeysAscending mktime
      (stdSort (fun a b => decide (a.getExpiryTime mktime < b.getExpiryTime mktime)) l)
  | [] => by simp [stdSort, KeysAscending]
  | x :: xs => by
    simp only [stdSort]
    exact sortInsert_ascending mktime x _ (stdSort_ascending xs)

theorem drainFuel_spec : ∀ (fuel : Nat) (heap : List MedicineItem),
    heap.length ≤ fuel → HeapOrd mktime heap →
    ∃ out, drainFuel mktime fuel heap = some out ∧ out.Perm heap ∧ KeysAscending mktime out
  | 0, heap, hl, _ => by
    have : heap = [] := List.eq_nil_of_length_eq_zero (by omega)
    subst this
    exact ⟨[], rfl, List.Perm.refl _, List.Pairwise.nil⟩
  | fuel + 1, [], _, _ => ⟨[], rfl, List.Perm.refl _, List.Pairwise.nil⟩
  | fuel + 1, m :: t, hl, ho => by
    obtain ⟨h', e, hperm, hord⟩ := extractMin_spec mktime m t
    have hlen : h'.length ≤ fuel := by
      rw [hperm.length_eq]
      simp only [List.length_cons] at hl
      omega
    obtain ⟨out, eo, operm, oasc⟩ := drainFuel_spec fuel h' hlen (hord ho)
    refine ⟨m :: out, ?_, (operm.trans hperm).cons m, ?_⟩
    · simp only [drainFuel, MinHeap.isEmpty, List.isEmpty_cons, Bool.false_eq_true, if_false]
      rw [e]
      simp only
      rw [eo]
      rfl
    · refine List.pairwise_cons.mpr ⟨fun x hx => ?_, oasc⟩
      have hx' : x ∈ m :: t :=
        List.mem_cons_of_mem m ((operm.trans hperm).subset hx)
      exact root_le_mem mktime (m :: t) ho m x (by simp) hx'

theorem step_spec (t : Tally) (c : Call)
    (hle : t.extracts ≤ t.inserts) (hsz : t.heap.length + t.extracts = t.inserts) :
    ∃ t', t.step mktime c = some t' ∧ t'.extracts ≤ t'.inserts ∧
      t'.heap.length + t'.extracts = t'.inserts := by
  cases c with
  | insert item =>
    obtain ⟨h', e⟩ := insert_isSome mktime t.heap item
    have hl := (insert_perm mktime t.heap item h' e).length_eq
    simp only [List.length_append, List.length_singleton] at hl
    refine ⟨⟨h', t.inserts + 1, t.extracts⟩, ?_, ?_, ?_⟩
    · simp only [Tally.step, e]
    · simp only
      omega
    · simp only
      omega
  | extractMin =>
    cases hh : t.heap with
    | nil =>
      refine ⟨⟨[], t.inserts, t.extracts⟩, ?_, hle, ?_⟩
      · simp only [Tally.step, hh, extractMin_nil]
      · rw [hh] at hsz
        simpa using hsz
    | cons m r =>
      obtain ⟨h', e, hperm, _⟩ := extractMin_spec mktime m r
      rw [hh] at hsz
      simp only [List.length_cons] at hsz
      have hl := hperm.length_eq
      refine ⟨⟨h', t.inserts, t.extracts + 1⟩, ?_, ?_, ?_⟩
      · simp only [Tally.step, hh, e]
      · simp only
        omega
      · simp only
        omega

theorem run_spec : ∀ (calls : List Call) (t : Tally),
    t.extracts ≤ t.inserts → t.heap.length + t.extracts = t.inserts →
    ∃ t', Tally.run mktime calls t = some t' ∧ t'.extracts ≤ t'.inserts ∧
      t'.heap.length + t'.extracts = t'.inserts
  | [], t, hle, hsz => ⟨t, rfl, hle, hsz⟩
  | c :: cs, t, hle, hsz => by
    obtain ⟨t1, e1, hle1, hsz1⟩ := step_spec mktime t c hle hsz
    obtain ⟨t2, e2, hle2, hsz2⟩ := run_spec cs t1 hle1 hsz1
    refine ⟨t2, ?_, hle2, hsz2⟩
    simp only [Tally.run, e1]
    exact e2

theorem testHeap_reachable : Reachable mktimeUTC [med2, med1, med3] :=
  Reachable.insert [med2, med1] med3 _
    (Reachable.insert [med1] med2 _
      (Reachable.insert [] med1 _ Reachable.new (by decide)) (by decide)) (by decide)

end

theorem run_inserts (mktime : Tm → Int) : ∀ (calls : List Call) (t t' : Tally),
    Tally.run mktime calls t = some t' →
    t'.inserts = t.inserts + calls.countP Call.isInsert
  | [], t, t', h => by
    simp only [Tally.run, Option.some.injEq] at h
    simp [← h]
  | c :: cs, t, t', h => by
    simp only [Tally.run] at h
    cases hs : t.step mktime c with
    | none => simp [hs] at h
    | some t1 =>
      simp only [hs] at h
      have ih := run_inserts mktime cs t1 t' h
      cases c with
      | insert item =>
        simp only [Tally.step] at hs
        cases hi : MinHeap.insert mktime t.heap item with
        | none => simp [hi] at hs
        | some heap =>
          simp only [hi, Option.some.injEq] at hs
          subst hs
          simp only [List.countP_cons, Call.isInsert, if_true] at ih ⊢
          omega
      | extractMin =>
        simp only [Tally.step] at hs
        have hin : t1.inserts = t.inserts := by
          split at hs <;>
          · simp only [Option.some.injEq] at hs
            subst hs
            rfl
        simp only [List.countP_cons, Call.isInsert] at ih ⊢
        simp only [Bool.false_eq_true, if_false, Nat.add_zero]
        omega

theorem walk_of_contains_append (t : TrieNode) (p x : Str)
    (h : Trie.contains t (p ++ x) = true) : ∃ n, Trie.walk t p = some n := by
  rw [contains_append] at h
  cases hw : Trie.walk t p with
  | none => simp [hw] at h
  | some n => exact ⟨n, rfl⟩

theorem insertAll_ordered (W : List Str) : (Trie.insertAll W).Ordered :=
  build_ordered W Trie.new (by simp [Trie.new, TrieNode.new, TrieNode.Ordered, Children.Ordered])

theorem contains_insertAll (W : List Str) (w : Str) :
    Trie.contains (Trie.insertAll W) w = true ↔ w ∈ W.map lower := by
  unfold Trie.insertAll
  rw [contains_foldl, contains_new]
  simp only [Bool.false_eq_true, false_or]
  rfl

theorem peek_cons (m : MedicineItem) (t : List MedicineItem) :
    MinHeap.peek (m :: t) = (.ok m, m :: t) := by
  simp [MinHeap.peek]

theorem med1_key (mktime : Tm → Int) : med1.getExpiryTime mktime = mktime ⟨124, 5, 30⟩ :=
  congrArg mktime (by decide)

theorem med2_key (mktime : Tm → Int) : med2.getExpiryTime mktime = mktime ⟨123, 11, 10⟩ :=
  congrArg mktime (by decide)

theorem med3_key (mktime : Tm → Int) : med3.getExpiryTime mktime = mktime ⟨124, 0, 15⟩ :=
  congrArg mktime (by decide)

theorem test_minheap_order (mktime : Tm → Int)
    (h1 : mktime ⟨123, 11, 10⟩ < mktime ⟨124, 0, 15⟩)
    (h2 : mktime ⟨124, 0, 15⟩ < mktime ⟨124, 5, 30⟩) :
    MinHeap.insert mktime [] med1 = some [med1] ∧
    MinHeap.insert mktime [med1] med2 = some [med2, med1] ∧
    MinHeap.insert mktime [med2, med1] med3 = some [med2, med1, med3] ∧
    drain mktime [med2, med1, med3] = some [med2, med3, med1] := by
  have h3 := lt_trans h1 h2
  have n1 := not_lt.mpr (le_of_lt h1)
  have n2 := not_lt.mpr (le_of_lt h2)
  have n3 := not_lt.mpr (le_of_lt h3)
  refine ⟨?_, ?_, ?_, ?_⟩
  · simp [MinHeap.insert, MinHeap.heapifyUp, MinHeap.heapifyUpFuel]
  · simp [MinHeap.insert, MinHeap.heapifyUp, MinHeap.heapifyUpFuel, med1_key, med2_key, h3]
  · simp [MinHeap.insert, MinHeap.heapifyUp, MinHeap.heapifyUpFuel, med1_key, med2_key,
      med3_key, n1]
  · simp [drain, drainFuel, MinHeap.isEmpty, MinHeap.extractMin, MinHeap.heapifyDown,
      MinHeap.heapifyDownFuel, MinHeap.pickSmaller, med1_key, med2_key, med3_key,
      h1, h2, h3, n1, n2, n3]

theorem pairwise_strLt_nodup (l : List Str) (h : l.Pairwise KeyStrLt) : l.Nodup := by
  unfold List.Nodup
  refine h.imp ?_
  intro a b hab e
  rw [e] at hab
  exact strLt_irrefl _ hab

theorem tolower_ascii (c : Char) (h : c.toNat < 128) : (tolower c).toNat < 128 := by
  unfold tolower
  split
  · rename_i hc
    have h2 : c.toNat ≤ 90 := hc.2
    unfold Char.ofNat
    split
    · show c.toNat + 32 < 128
      omega
    · decide
  · exact h

theorem lower_ascii (w : Str) (h : IsAscii w) : IsAscii (lower w) := by
  intro c hc
  obtain ⟨c0, hc0, rfl⟩ := List.mem_map.mp hc
  exact tolower_ascii c0 (h c0 hc0)

theorem char_lt_of_charValue_lt (a b : Char) (ha : a.toNat < 128) (hb : b.toNat < 128)
    (h : charValue a < charValue b) : a < b := by
  rw [charValue_ascii a ha, charValue_ascii b hb] at h
  have h' : a.toNat < b.toNat := by omega
  exact h'

theorem strLt_of_keyStrLt : ∀ (a b : Str), IsAscii a → IsAscii b → KeyStrLt a b → StrLt a b
  | _, _, ha, hb, h => by
    induction h with
    | nil => exact List.Lex.nil
    | cons _ ih =>
      exact List.Lex.cons (ih (fun c hc => ha c (List.mem_cons_of_mem _ hc))
        (fun c hc => hb c (List.mem_cons_of_mem _ hc)))
    | rel hr =>
      exact List.Lex.rel (char_lt_of_charValue_lt _ _ (ha _ (List.mem_cons_self _ _))
        (hb _ (List.mem_cons_self _ _)) hr)

/-! ## The claims -/

/-- C1: after the words of `W` are inserted into a fresh trie, `search s` is true exactly
when the lowercase form of `s` is the lowercase form of a word of `W`. It is false when
the path of `s` does not exist, and false when `s` is only a proper prefix of inserted
words: the walk then ends at a node that is not terminal. -/
theorem C1_search_iff_inserted (W : List Str) (s : Str) :
    (Trie.search (Trie.insertAll W) s = true ↔ lower s ∈ W.map lower) ∧
    (Trie.walk (Trie.insertAll W) (lower s) = none →
      Trie.search (Trie.insertAll W) s = false) ∧
    (∀ w ∈ W, lower s <+: lower w → lower s ∉ W.map lower →
      ∃ n, Trie.walk (Trie.insertAll W) (lower s) = some n ∧ n.isEndOfWord = false ∧
        Trie.search (Trie.insertAll W) s = false) := by
  have hiff : Trie.search (Trie.insertAll W) s = true ↔ lower s ∈ W.map lower := by
    rw [search_eq_contains]
    exact contains_insertAll W (lower s)
  refine ⟨hiff, ?_, ?_⟩
  · intro hw
    rw [search_eq_contains]
    unfold Trie.contains
    have hw' : Trie.walk (Trie.insertAll W) (List.map tolower s) = none := hw
    rw [hw']
  · intro w hw hpre hnot
    obtain ⟨x, hx⟩ := hpre
    have hc : Trie.contains (Trie.insertAll W) (lower s ++ x) = true := by
      rw [hx]
      exact (contains_insertAll W (lower w)).mpr (List.mem_map_of_mem lower hw)
    obtain ⟨n, hn⟩ := walk_of_contains_append _ _ _ hc
    have hfalse : Trie.search (Trie.insertAll W) s = false := by
      cases hs : Trie.search (Trie.insertAll W) s with
      | false => rfl
      | true => exact absurd (hiff.mp hs) hnot
    refine ⟨n, hn, ?_, hfalse⟩
    have : Trie.contains (Trie.insertAll W) (lower s) = n.isEndOfWord := by
      unfold Trie.contains
      rw [hn]
    rw [← this]
    have h2 := search_eq_contains s (Trie.insertAll W)
    rw [hfalse] at h2
    exact h2.symm

/-- C2: after the words of `W` are inserted into a fresh trie, `startsWith p` holds
exactly the lowercase forms of the words of `W` that start with the lowercase form of `p`,
none of them twice, and it is empty when no inserted word has that beginning. -/
theorem C2_startsWith_exact (W : List Str) (p : Str) :
    (∀ w, w ∈ Trie.startsWith (Trie.insertAll W) p ↔ (w ∈ W.map lower ∧ lower p <+: w)) ∧
    (Trie.startsWith (Trie.insertAll W) p).Nodup ∧
    ((∀ w ∈ W, ¬ lower p <+: lower w) → Trie.startsWith (Trie.insertAll W) p = []) := by
  have hmem : ∀ w, w ∈ Trie.startsWith (Trie.insertAll W) p ↔
      (w ∈ W.map lower ∧ lower p <+: w) := by
    intro w
    rw [mem_startsWith_iff _ (insertAll_ordered W), contains_insertAll]
    exact And.comm
  refine ⟨hmem, ?_, ?_⟩
  · exact pairwise_strLt_nodup _ (startsWith_pairwise _ (insertAll_ordered W) p)
  · intro hno
    apply List.eq_nil_iff_forall_not_mem.mpr
    intro w hw
    obtain ⟨hin, hpre⟩ := (hmem w).mp hw
    obtain ⟨w0, hw0, rfl⟩ := List.mem_map.mp hin
    exact hno w0 hw0 hpre

/-- C3, as amended: in a trie built by inserts, the sequence returned by `startsWith p` is
in strictly ascending lexicographic order over the key order of the children maps, which
compares the bytes as signed `char`. When every inserted word is ASCII this is the order
of `std::string`; after inserting "apple", "banana", "application" and "appetizer",
`startsWith "app"` is "appetizer", "apple", "application". -/
theorem C3_startsWith_sorted (W : List Str) (p : Str) :
    (Trie.startsWith (Trie.insertAll W) p).Pairwise KeyStrLt ∧
    ((∀ w ∈ W, IsAscii w) → (Trie.startsWith (Trie.insertAll W) p).Pairwise StrLt) ∧
    Trie.startsWith
        (Trie.insertAll
          ["apple".toList, "banana".toList, "application".toList, "appetizer".toList])
        "app".toList
      = ["appetizer".toList, "apple".toList, "application".toList] := by
  have hk := startsWith_pairwise _ (insertAll_ordered W) p
  refine ⟨hk, ?_, by decide⟩
  intro hW
  have hmem : ∀ w, w ∈ Trie.startsWith (Trie.insertAll W) p → IsAscii w := by
    intro w hw
    have h1 := ((mem_startsWith_iff _ (insertAll_ordered W) p w).mp hw).2
    obtain ⟨w0, hw0, rfl⟩ := List.mem_map.mp ((contains_insertAll W w).mp h1)
    exact lower_ascii w0 (hW w0 hw0)
  exact hk.imp_of_mem (fun ha hb h => strLt_of_keyStrLt _ _ (hmem _ ha) (hmem _ hb) h)

/-- Witness of C3: the ASCII words of `test_trie`. -/
theorem C3_startsWith_sorted_witness :
    (Trie.startsWith
        (Trie.insertAll
          ["apple".toList, "banana".toList, "application".toList, "appetizer".toList])
        "a".toList).Pairwise StrLt :=
  (C3_startsWith_sorted
    ["apple".toList, "banana".toList, "application".toList, "appetizer".toList]
    "a".toList).2.1 (by decide)

/-- C3 as stated fails: with the words "a", "z" and the two bytes 195, 169 (the UTF-8
form of "é"), `startsWith ""` lists the two-byte word first, because the children map
compares its keys as signed `char`; in the order of `std::string` that word comes last, so
the sequence is not ascending. -/
theorem C3_startsWith_sorted_counterexample :
    Trie.startsWith
        (Trie.insertAll ["a".toList, [Char.ofNat 195, Char.ofNat 169], "z".toList]) []
      = [[Char.ofNat 195, Char.ofNat 169], "a".toList, "z".toList] ∧
    ¬ (Trie.startsWith
        (Trie.insertAll ["a".toList, [Char.ofNat 195, Char.ofNat 169], "z".toList])
        []).Pairwise StrLt := by
  have e : Trie.startsWith
        (Trie.insertAll ["a".toList, [Char.ofNat 195, Char.ofNat 169], "z".toList]) []
      = [[Char.ofNat 195, Char.ofNat 169], "a".toList, "z".toList] := by decide
  refine ⟨e, ?_⟩
  rw [e]
  intro h
  have h1 : StrLt [Char.ofNat 195, Char.ofNat 169] "a".toList :=
    (List.pairwise_cons.mp h).1 _ (List.mem_cons_self _ _)
  cases h1 with
  | rel h2 => exact absurd h2 (by decide)

/-- C4: on a non-empty heap reached from the empty one by `insert`, `extractMin` and
`clear`, `peek` returns a record whose key is at most the key of every stored record. -/
theorem C4_peek_minimum (mktime : Tm → Int) (heap : List MedicineItem)
    (hr : Reachable mktime heap) (hne : heap ≠ []) :
    ∃ r, (MinHeap.peek heap).1 = .ok r ∧
      ∀ x ∈ heap, r.getExpiryTime mktime ≤ x.getExpiryTime mktime := by
  cases heap with
  | nil => exact absurd rfl hne
  | cons m t =>
    refine ⟨m, by rw [peek_cons], fun x hx => ?_⟩
    exact root_le_mem mktime (m :: t) (reachable_ord mktime _ hr) m x (by simp) hx

/-- Witness of C4: the heap of `test_minheap`. -/
theorem C4_peek_minimum_witness :
    ∃ r, (MinHeap.peek [med2, med1, med3]).1 = .ok r ∧
      ∀ x ∈ [med2, med1, med3],
        r.getExpiryTime mktimeUTC ≤ x.getExpiryTime mktimeUTC :=
  C4_peek_minimum mktimeUTC [med2, med1, med3] testHeap_reachable (by decide)

/-- C5: on a heap reached from the empty one by `insert`, `extractMin` and `clear`,
extracting until the heap is empty ends, yields as many records as the heap holds (a
rearrangement of the storage), and their keys are in non-decreasing order. With the
records of `test_minheap`, dated 2024-06-30, 2023-12-10 and 2024-01-15, the order of
extraction is 2023-12-10, 2024-01-15, 2024-06-30 whenever `mktime` orders these three
days as the calendar does. -/
theorem C5_drain_ascending (mktime : Tm → Int) (heap : List MedicineItem)
    (hr : Reachable mktime heap) :
    (∃ out, drain mktime heap = some out ∧ out.length = MinHeap.size heap ∧
      out.Perm heap ∧ KeysAscending mktime out) ∧
    (mktime ⟨123, 11, 10⟩ < mktime ⟨124, 0, 15⟩ →
      mktime ⟨124, 0, 15⟩ < mktime ⟨124, 5, 30⟩ →
      MinHeap.insert mktime [] med1 = some [med1] ∧
      MinHeap.insert mktime [med1] med2 = some [med2, med1] ∧
      MinHeap.insert mktime [med2, med1] med3 = some [med2, med1, med3] ∧
      drain mktime [med2, med1, med3] = some [med2, med3, med1]) := by
  refine ⟨?_, test_minheap_order mktime⟩
  obtain ⟨out, e, hperm, hasc⟩ :=
    drainFuel_spec mktime heap.length heap (le_refl _) (reachable_ord mktime _ hr)
  exact ⟨out, e, hperm.length_eq, hperm, hasc⟩

/-- Witness of C5: the heap of `test_minheap`, with the UTC instance of `mktime`. -/
theorem C5_drain_ascending_witness :
    (∃ out, drain mktimeUTC [med2, med1, med3] = some out ∧
      out.length = MinHeap.size [med2, med1, med3] ∧
      out.Perm [med2, med1, med3] ∧ KeysAscending mktimeUTC out) ∧
    drain mktimeUTC [med2, med1, med3] = some [med2, med3, med1] :=
  ⟨(C5_drain_ascending mktimeUTC [med2, med1, med3] testHeap_reachable).1,
    ((C5_drain_ascending mktimeUTC [med2, med1, med3] testHeap_reachable).2
      (by decide) (by decide)).2.2.2⟩

/-- C6: the min-heap property holds for the empty heap and is kept by `insert`, by an
`extractMin` that returns a record and by `clear`; so in every reachable storage the key
at each position `i` with `0 < i < size` is at least the key at position `(i - 1) / 2`. -/
theorem C6_min_heap_invariant (mktime : Tm → Int) :
    MinHeapProperty mktime [] ∧
    (∀ heap item heap', MinHeapProperty mktime heap →
      MinHeap.insert mktime heap item = some heap' → MinHeapProperty mktime heap') ∧
    (∀ heap r heap', MinHeapProperty mktime heap →
      MinHeap.extractMin mktime heap = (.ok r, heap') → MinHeapProperty mktime heap') ∧
    (∀ heap, MinHeapProperty mktime (MinHeap.clear heap)) ∧
    (∀ heap, Reachable mktime heap → MinHeapProperty mktime heap) := by
  refine ⟨?_, ?_, ?_, ?_, ?_⟩
  · exact minHeapProperty_of_heapOrd mktime [] (HeapOrd_nil mktime)
  · intro heap item heap' hm hins
    exact minHeapProperty_of_heapOrd mktime _
      (insert_ord mktime heap item heap' hins (heapOrd_of_minHeapProperty mktime _ hm))
  · intro heap r heap' hm hex
    have := extractMin_ord mktime heap (heapOrd_of_minHeapProperty mktime _ hm)
    rw [hex] at this
    exact minHeapProperty_of_heapOrd mktime _ this
  · intro heap
    exact minHeapProperty_of_heapOrd mktime [] (HeapOrd_nil mktime)
  · intro heap hr
    exact minHeapProperty_of_heapOrd mktime _ (reachable_ord mktime _ hr)

/-- Witness of C6: the heap of `test_minheap` has the min-heap property. -/
theorem C6_min_heap_invariant_witness : MinHeapProperty mktimeUTC [med2, med1, med3] :=
  (C6_min_heap_invariant mktimeUTC).2.2.2.2 [med2, med1, med3] testHeap_reachable

/-- C7: on a non-empty heap `extractMin` returns the record at position 0, the one `peek`
returns, and the storage afterwards together with that record is a rearrangement of the
storage before; from a heap of size 1 the result is the empty heap. -/
theorem C7_extractMin_removes_root (mktime : Tm → Int) (heap : List MedicineItem)
    (hne : heap ≠ []) :
    ∃ r heap', MinHeap.extractMin mktime heap = (.ok r, heap') ∧
      (MinHeap.peek heap).1 = .ok r ∧ heap[0]? = some r ∧ heap.Perm (r :: heap') ∧
      (MinHeap.size heap = 1 → heap' = []) := by
  cases heap with
  | nil => exact absurd rfl hne
  | cons m t =>
    obtain ⟨h', e, hperm, _⟩ := extractMin_spec mktime m t
    refine ⟨m, h', e, by rw [peek_cons], by simp, (hperm.cons m).symm, ?_⟩
    intro hs
    have ht : t = [] := by
      simp only [MinHeap.size, List.length_cons] at hs
      exact List.eq_nil_of_length_eq_zero (by omega)
    subst ht
    exact hperm.eq_nil

/-- Witness of C7: the heap of `test_minheap`. -/
theorem C7_extractMin_removes_root_witness :
    ∃ r heap', MinHeap.extractMin mktimeUTC [med2, med1, med3] = (.ok r, heap') ∧
      (MinHeap.peek [med2, med1, med3]).1 = .ok r ∧ [med2, med1, med3][0]? = some r ∧
      [med2, med1, med3].Perm (r :: heap') ∧
      (MinHeap.size [med2, med1, med3] = 1 → heap' = []) :=
  C7_extractMin_removes_root mktimeUTC [med2, med1, med3] (by decide)

/-- C8: `getSortedItems` returns a rearrangement of the storage whose keys are in
non-decreasing order, it leaves the storage as it was, and a second call returns a
sequence with the same keys. -/
theorem C8_getSortedItems (mktime : Tm → Int) (heap : List MedicineItem) :
    (MinHeap.getSortedItems mktime heap).1.Perm heap ∧
    KeysAscending mktime (MinHeap.getSortedItems mktime heap).1 ∧
    (MinHeap.getSortedItems mktime heap).2 = heap ∧
    (MinHeap.getSortedItems mktime (MinHeap.getSortedItems mktime heap).2).1.map
        (MedicineItem.getExpiryTime mktime)
      = (MinHeap.getSortedItems mktime heap).1.map (MedicineItem.getExpiryTime mktime) :=
  ⟨stdSort_perm _ heap, stdSort_ascending mktime heap, rfl, rfl⟩

/-- C9: `peek` and `extractMin` fail exactly on the empty storage, the failure is the
empty-heap error, and a failing call leaves the storage as it was; on a non-empty storage
both return a record. -/
theorem C9_empty_error (mktime : Tm → Int) (heap : List MedicineItem) :
    ((∃ e, (MinHeap.peek heap).1 = .error e) ↔ heap = []) ∧
    (∀ e, (MinHeap.peek heap).1 = .error e →
      e = HeapError.heapIsEmpty ∧ (MinHeap.peek heap).2 = heap) ∧
    ((∃ e, (MinHeap.extractMin mktime heap).1 = .error e) ↔ heap = []) ∧
    (∀ e, (MinHeap.extractMin mktime heap).1 = .error e →
      e = HeapError.heapIsEmpty ∧ (MinHeap.extractMin mktime heap).2 = heap) ∧
    (heap ≠ [] → ∃ r, (MinHeap.peek heap).1 = .ok r) ∧
    (heap ≠ [] → ∃ r, (MinHeap.extractMin mktime heap).1 = .ok r) := by
  cases heap with
  | nil =>
    refine ⟨⟨fun _ => rfl, fun _ => ⟨_, rfl⟩⟩, ?_, ⟨fun _ => rfl, fun _ => ⟨_, rfl⟩⟩, ?_,
      fun h => absurd rfl h, fun h => absurd rfl h⟩
    · intro e he
      have hp : MinHeap.peek [] = (.error .heapIsEmpty, []) := rfl
      rw [hp] at he ⊢
      simp only [Except.error.injEq] at he
      exact ⟨he.symm, rfl⟩
    · intro e he
      rw [extractMin_nil] at he ⊢
      simp only [Except.error.injEq] at he
      exact ⟨he.symm, rfl⟩
  | cons m t =>
    obtain ⟨h', e, _, _⟩ := extractMin_spec mktime m t
    have hp := peek_cons m t
    refine ⟨⟨?_, fun h => by cases h⟩, ?_, ⟨?_, fun h => by cases h⟩, ?_,
      fun _ => ⟨m, by rw [hp]⟩, fun _ => ⟨m, by rw [e]⟩⟩
    · rintro ⟨x, hx⟩
      rw [hp] at hx
      cases hx
    · intro x hx
      rw [hp] at hx
      cases hx
    · rintro ⟨x, hx⟩
      rw [e] at hx
      cases hx
    · intro x hx
      rw [e] at hx
      cases hx

/-- C10: after any sequence of `insert` and `extractMin` calls on a fresh heap, `size` is
the number of `insert` calls minus the number of `extractMin` calls that returned a
record, and `isEmpty` is true exactly when that difference is 0. -/
theorem C10_size_counts (mktime : Tm → Int) (calls : List Call) :
    ∃ t, Tally.run mktime calls ⟨[], 0, 0⟩ = some t ∧
      t.inserts = calls.countP Call.isInsert ∧
      t.extracts ≤ t.inserts ∧
      MinHeap.size t.heap = t.inserts - t.extracts ∧
      (MinHeap.isEmpty t.heap = true ↔ t.inserts - t.extracts = 0) := by
  obtain ⟨t, e, hle, hsz⟩ := run_spec mktime calls ⟨[], 0, 0⟩ (le_refl _) rfl
  have hins := run_inserts mktime calls _ t e
  refine ⟨t, e, by simpa using hins, hle, ?_, ?_⟩
  · simp only [MinHeap.size]
    omega
  · simp only [MinHeap.isEmpty, List.isEmpty_iff]
    constructor
    · intro h
      rw [h] at hsz
      simp only [List.length_nil] at hsz
      omega
    · intro h
      exact List.eq_nil_of_length_eq_zero (by omega)

/-! ## Further lemmas -/

theorem set_set : ∀ (m : Children) (c : Char) (n n' : TrieNode),
    (m.set c n).set c n' = m.set c n'
  | .nil, c, n, n' => by simp [Children.set]
  | .cons k child rest, c, n, n' => by
    have ih := set_set rest c n n'
    by_cases h1 : charValue c < charValue k
    · simp [Children.set, h1]
    · by_cases h2 : c = k
      · subst h2
        simp [Children.set]
      · simp [Children.set, h1, h2, ih]

theorem insert_insert_self : ∀ (w : Str) (t : TrieNode),
    Trie.insert (Trie.insert t w) w = Trie.insert t w
  | [], .mk e m => rfl
  | ch :: rest, .mk e m => by
    simp only [Trie.insert, TrieNode.children, TrieNode.isEndOfWord, find_set, if_true,
      set_set]
    rw [insert_insert_self rest]

theorem startsWith_head_of_search (t : TrieNode) (p : Str)
    (h : Trie.search t p = true) :
    ∃ rest, Trie.startsWith t p = lower p :: rest := by
  rw [search_eq_contains] at h
  unfold Trie.contains at h
  unfold Trie.startsWith
  simp only
  cases hw : Trie.walk t (List.map tolower p) with
  | none => simp [hw] at h
  | some n =>
    simp only [hw] at h
    cases n with
    | mk e m =>
      simp only [TrieNode.isEndOfWord] at h
      subst h
      refine ⟨m.words.map (fun s => List.map tolower p ++ s), ?_⟩
      simp [dfs_eq_words, TrieNode.words, lower]


theorem set_ne_nil : ∀ (m : Children) (c : Char) (n : TrieNode), m.set c n ≠ Children.nil
  | .nil, c, n => by simp [Children.set]
  | .cons k child rest, c, n => by
    simp only [Children.set]
    split_ifs <;> simp

theorem insert_terminal_of_leaf : ∀ (w : Str) (t : TrieNode),
    (Trie.insert t w).children = Children.nil → (Trie.insert t w).isEndOfWord = true
  | [], _, _ => rfl
  | ch :: rest, t, h => by
    simp only [Trie.insert, TrieNode.children] at h
    exact absurd h (set_ne_nil _ _ _)

theorem set_noDeadBranch : ∀ (m : Children) (c : Char) (n : TrieNode),
    m.NoDeadBranch → (n.children = Children.nil → n.isEndOfWord = true) → n.NoDeadBranch →
    (m.set c n).NoDeadBranch
  | .nil, c, n, _, h1, h2 => by
    simp only [Children.set, Children.NoDeadBranch]
    exact ⟨h1, h2, trivial⟩
  | .cons k child rest, c, n, hm, h1, h2 => by
    have hm' := hm
    rw [Children.NoDeadBranch] at hm'
    obtain ⟨a, b, d⟩ := hm'
    simp only [Children.set]
    by_cases e1 : charValue c < charValue k
    · simp only [e1, if_true]
      rw [Children.NoDeadBranch]
      exact ⟨h1, h2, hm⟩
    · by_cases e2 : c = k
      · subst e2
        simp only [e1, if_false, if_true]
        rw [Children.NoDeadBranch]
        exact ⟨h1, h2, d⟩
      · simp only [e1, e2, if_false]
        rw [Children.NoDeadBranch]
        exact ⟨a, b, set_noDeadBranch rest c n d h1 h2⟩

theorem find_noDeadBranch : ∀ (m : Children) (c : Char) (child : TrieNode),
    m.NoDeadBranch → m.find c = some child →
    (child.children = Children.nil → child.isEndOfWord = true) ∧ child.NoDeadBranch
  | .nil, c, child, _, h => by simp [Children.find] at h
  | .cons k ch rest, c, child, hm, h => by
    rw [Children.NoDeadBranch] at hm
    simp only [Children.find] at h
    by_cases hc : c = k
    · simp only [hc, if_true, Option.some.injEq] at h
      exact h ▸ ⟨hm.1, hm.2.1⟩
    · simp only [hc, if_false] at h
      exact find_noDeadBranch rest c child hm.2.2 h

theorem insert_noDeadBranch : ∀ (w : Str) (t : TrieNode),
    t.NoDeadBranch → (Trie.insert t w).NoDeadBranch
  | [], .mk e m, h => by
    simpa [Trie.insert, TrieNode.NoDeadBranch, TrieNode.children] using h
  | ch :: rest, .mk e m, h => by
    rw [TrieNode.NoDeadBranch] at h
    simp only [Trie.insert, TrieNode.children, TrieNode.NoDeadBranch]
    apply set_noDeadBranch _ _ _ h (insert_terminal_of_leaf rest _)
    apply insert_noDeadBranch rest
    cases hf : m.find (tolower ch) with
    | none => simp [TrieNode.new, TrieNode.NoDeadBranch, Children.NoDeadBranch]
    | some child => exact (find_noDeadBranch m _ child h hf).2

theorem foldl_insert_noDeadBranch : ∀ (ws : List Str) (t : TrieNode),
    t.NoDeadBranch → (ws.foldl Trie.insert t).NoDeadBranch
  | [], _, h => h
  | w :: ws, t, h => foldl_insert_noDeadBranch ws _ (insert_noDeadBranch w t h)

theorem insertAll_noDeadBranch (W : List Str) : (Trie.insertAll W).NoDeadBranch :=
  foldl_insert_noDeadBranch W Trie.new
    (by simp [Trie.new, TrieNode.new, TrieNode.NoDeadBranch, Children.NoDeadBranch])

theorem walk_noDeadBranch : ∀ (q : Str) (t n : TrieNode),
    t.NoDeadBranch → q ≠ [] → Trie.walk t q = some n →
    (n.children = Children.nil → n.isEndOfWord = true) ∧ n.NoDeadBranch
  | [], _, _, _, hq, _ => absurd rfl hq
  | c :: r, .mk e m, n, ht, _, hw => by
    rw [TrieNode.NoDeadBranch] at ht
    simp only [Trie.walk, TrieNode.children] at hw
    cases hf : m.find c with
    | none => simp [hf] at hw
    | some child =>
      simp only [hf] at hw
      have hc := find_noDeadBranch m c child ht hf
      cases r with
      | nil =>
        simp only [Trie.walk, Option.some.injEq] at hw
        exact hw ▸ hc
      | cons c' r' => exact walk_noDeadBranch (c' :: r') child n hc.2 (List.cons_ne_nil _ _) hw

mutual
theorem words_ne_nil : ∀ (n : TrieNode), n.NoDeadBranch →
    (n.children = Children.nil → n.isEndOfWord = true) → n.words ≠ []
  | .mk e m, hn, hl => by
    rw [TrieNode.NoDeadBranch] at hn
    cases e with
    | true => simp [TrieNode.words]
    | false =>
      have hm : m ≠ Children.nil := fun h => by
        have := hl (by simpa [TrieNode.children] using h)
        simp [TrieNode.isEndOfWord] at this
      have := childrenWords_ne_nil m hn hm
      simpa [TrieNode.words] using this
theorem childrenWords_ne_nil : ∀ (m : Children), m.NoDeadBranch → m ≠ Children.nil →
    m.words ≠ []
  | .nil, _, h => absurd rfl h
  | .cons k child rest, hm, _ => by
    rw [Children.NoDeadBranch] at hm
    have := words_ne_nil child hm.2.1 hm.1
    simp [Children.words, this]
end

theorem set_comm : ∀ (m : Children) (c c' : Char) (n n' : TrieNode), c ≠ c' →
    (m.set c n).set c' n' = (m.set c' n').set c n
  | .nil, c, c', n, n', hne => by
    rcases lt_or_gt_of_ne (charValue_ne hne) with h | h
    · have h' : ¬ charValue c' < charValue c := not_lt.mpr (le_of_lt h)
      simp [Children.set, h, h', hne, Ne.symm hne]
    · have h' : ¬ charValue c < charValue c' := not_lt.mpr (le_of_lt h)
      have h'' : charValue c' < charValue c := h
      simp [Children.set, h'', h', hne, Ne.symm hne]
  | .cons k child rest, c, c', n, n', hne => by
    have ih := set_comm rest c c' n n' hne
    have hne' := Ne.symm hne
    rcases lt_trichotomy (charValue c) (charValue k) with h1 | h1 | h1 <;>
    rcases lt_trichotomy (charValue c') (charValue k) with h2 | h2 | h2
    · rcases lt_or_gt_of_ne (charValue_ne hne) with h | h
      · have h' : ¬ charValue c' < charValue c := not_lt.mpr (le_of_lt h)
        simp [Children.set, h1, h2, h, h', hne, hne']
      · have h' : ¬ charValue c < charValue c' := not_lt.mpr (le_of_lt h)
        have h'' : charValue c' < charValue c := h
        simp [Children.set, h1, h2, h'', h', hne, hne']
    · have h2' := charValue_injective _ _ h2
      subst h2'
      have h' : ¬ charValue c' < charValue c := not_lt.mpr (le_of_lt h1)
      simp [Children.set, h1, h', hne, hne']
    · have ha : ¬ charValue c' < charValue k := not_lt.mpr (le_of_lt h2)
      have hb : c' ≠ k := fun e => by
        rw [e] at h2
        exact lt_irrefl _ h2
      have hc : ¬ charValue c' < charValue c := not_lt.mpr (le_of_lt (lt_trans h1 h2))
      simp [Children.set, h1, ha, hb, hc, hne, hne']
    · have h1' := charValue_injective _ _ h1
      subst h1'
      have h' : ¬ charValue c < charValue c' := not_lt.mpr (le_of_lt h2)
      simp [Children.set, h2, h', hne, hne']
    · exact absurd ((charValue_injective _ _ h1).trans (charValue_injective _ _ h2).symm) hne
    · have h1' := charValue_injective _ _ h1
      subst h1'
      have ha : ¬ charValue c' < charValue c := not_lt.mpr (le_of_lt h2)
      simp [Children.set, ha, hne, hne']
    · have ha : ¬ charValue c < charValue k := not_lt.mpr (le_of_lt h1)
      have hb : c ≠ k := fun e => by
        rw [e] at h1
        exact lt_irrefl _ h1
      have hc : ¬ charValue c < charValue c' := not_lt.mpr (le_of_lt (lt_trans h2 h1))
      simp [Children.set, h2, ha, hb, hc, hne, hne']
    · have h2' := charValue_injective _ _ h2
      subst h2'
      have ha : ¬ charValue c < charValue c' := not_lt.mpr (le_of_lt h1)
      simp [Children.set, ha, hne, hne']
    · have ha : ¬ charValue c < charValue k := not_lt.mpr (le_of_lt h1)
      have hb : c ≠ k := fun e => by
        rw [e] at h1
        exact lt_irrefl _ h1
      have ha' : ¬ charValue c' < charValue k := not_lt.mpr (le_of_lt h2)
      have hb' : c' ≠ k := fun e => by
        rw [e] at h2
        exact lt_irrefl _ h2
      simp [Children.set, ha, hb, ha', hb', ih]

theorem insert_comm : ∀ (a b : Str) (t : TrieNode),
    Trie.insert (Trie.insert t a) b = Trie.insert (Trie.insert t b) a
  | [], [], _ => rfl
  | [], c :: r, .mk e m => by
    simp [Trie.insert, TrieNode.children, TrieNode.isEndOfWord]
  | c :: r, [], .mk e m => by
    simp [Trie.insert, TrieNode.children, TrieNode.isEndOfWord]
  | c1 :: r1, c2 :: r2, .mk e m => by
    simp only [Trie.insert, TrieNode.children, TrieNode.isEndOfWord, find_set]
    by_cases h : tolower c1 = tolower c2
    · rw [h]
      simp only [if_true, set_set]
      rw [insert_comm r1 r2]
    · have h' : ¬ tolower c2 = tolower c1 := fun e => h e.symm
      simp only [h, h', if_false]
      rw [set_comm _ _ _ _ _ h]

theorem strLt_asymm : ∀ (a b : Str), KeyStrLt a b → ¬ KeyStrLt b a
  | [], _, _, h2 => by cases h2
  | c :: a, _, h1, h2 => by
    cases h1 with
    | cons h1' =>
      cases h2 with
      | cons h2' => exact strLt_asymm a _ h1' h2'
      | rel h2' => exact lt_irrefl _ h2'
    | rel h1' =>
      cases h2 with
      | cons h2' => exact lt_irrefl _ h1'
      | rel h2' => exact lt_asymm h1' h2'

theorem eq_of_pairwise_strLt (l1 l2 : List Str) (h1 : l1.Pairwise KeyStrLt)
    (h2 : l2.Pairwise KeyStrLt) (hm : ∀ w, w ∈ l1 ↔ w ∈ l2) : l1 = l2 := by
  haveI : IsAntisymm Str KeyStrLt := ⟨fun a b x y => absurd y (strLt_asymm a b x)⟩
  have hp : l1.Perm l2 :=
    (List.perm_ext_iff_of_nodup (pairwise_strLt_nodup l1 h1) (pairwise_strLt_nodup l2 h2)).mpr hm
  exact List.eq_of_perm_of_sorted hp h1 h2

section
variable (mktime : Tm → Int)

theorem heapifyUpFuel_fuel : ∀ (f1 f2 : Nat) (heap : List MedicineItem) (i : Nat),
    i < f1 → i < f2 →
    MinHeap.heapifyUpFuel mktime f1 heap i = MinHeap.heapifyUpFuel mktime f2 heap i
  | 0, _, _, _, h, _ => by omega
  | _ + 1, 0, _, _, _, h => by omega
  | f1 + 1, f2 + 1, heap, i, h1, h2 => by
    rw [heapifyUpFuel_eq, heapifyUpFuel_eq]
    split
    · rename_i hpos
      split
      · split
        · exact heapifyUpFuel_fuel f1 f2 _ _ (by omega) (by omega)
        · rfl
      · rfl
    · rfl

theorem heapifyUp_eq (heap : List MedicineItem) (i : Nat) :
    MinHeap.heapifyUp mktime heap i =
      if i > 0 then
        match heap[i]?, heap[(i - 1) / 2]? with
        | some a, some b =>
          if a.getExpiryTime mktime < b.getExpiryTime mktime then
            MinHeap.heapifyUp mktime ((heap.set i b).set ((i - 1) / 2) a) ((i - 1) / 2)
          else some heap
        | _, _ => none
      else some heap := by
  unfold MinHeap.heapifyUp
  rw [heapifyUpFuel_eq]
  split
  · rename_i hpos
    split
    · split
      · exact heapifyUpFuel_fuel mktime _ _ _ _ (by omega) (by omega)
      · rfl
    · rfl
  · rfl

theorem pickSmaller_pair (heap : List MedicineItem) (i s1 s2 : Nat)
    (e1 : MinHeap.pickSmaller mktime heap (2 * i + 1) i = some s1)
    (e2 : MinHeap.pickSmaller mktime heap (2 * i + 2) s1 = some s2) (hne : s2 ≠ i) :
    i < s2 ∧ s2 < heap.length ∧ (s2 = 2 * i + 1 ∨ s2 = 2 * i + 2) := by
  have p1 := pickSmaller_spec mktime heap _ _ _ e1
  have p2 := pickSmaller_spec mktime heap _ _ _ e2
  omega

theorem heapifyDownFuel_fuel : ∀ (f1 f2 : Nat) (heap : List MedicineItem) (i : Nat),
    0 < f1 → 0 < f2 → heap.length < f1 + i → heap.length < f2 + i →
    MinHeap.heapifyDownFuel mktime f1 heap i = MinHeap.heapifyDownFuel mktime f2 heap i
  | 0, _, _, _, h, _, _, _ => by omega
  | _ + 1, 0, _, _, _, h, _, _ => by omega
  | f1 + 1, f2 + 1, heap, i, _, _, h1, h2 => by
    rw [heapifyDownFuel_eq, heapifyDownFuel_eq]
    cases e1 : MinHeap.pickSmaller mktime heap (2 * i + 1) i with
    | none => rfl
    | some s1 =>
      simp only
      cases e2 : MinHeap.pickSmaller mktime heap (2 * i + 2) s1 with
      | none => rfl
      | some s2 =>
        simp only
        split
        · rename_i hne
          have hs := pickSmaller_pair mktime heap i s1 s2 e1 e2 hne
          split
          · apply heapifyDownFuel_fuel f1 f2
            · omega
            · omega
            · simp only [List.length_set]
              omega
            · simp only [List.length_set]
              omega
          · rfl
        · rfl

theorem heapifyDown_eq (heap : List MedicineItem) (i : Nat) :
    MinHeap.heapifyDown mktime heap i =
      match MinHeap.pickSmaller mktime heap (2 * i + 1) i with
      | none => none
      | some smallest =>
        match MinHeap.pickSmaller mktime heap (2 * i + 2) smallest with
        | none => none
        | some smallest =>
          if smallest ≠ i then
            match heap[i]?, heap[smallest]? with
            | some a, some b =>
              MinHeap.heapifyDown mktime ((heap.set i b).set smallest a) smallest
            | _, _ => none
          else some heap := by
  unfold MinHeap.heapifyDown
  rw [heapifyDownFuel_eq]
  cases e1 : MinHeap.pickSmaller mktime heap (2 * i + 1) i with
  | none => rfl
  | some s1 =>
    simp only
    cases e2 : MinHeap.pickSmaller mktime heap (2 * i + 2) s1 with
    | none => rfl
    | some s2 =>
      simp only
      split
      · rename_i hne
        have hs := pickSmaller_pair mktime heap i s1 s2 e1 e2 hne
        split
        · apply heapifyDownFuel_fuel
          · omega
          · simp only [List.length_set]
            omega
          · simp only [List.length_set]
            omega
          · simp only [List.length_set]
            omega
        · rfl
      · rfl

theorem heapifyDownFuel_untouched : ∀ (fuel : Nat) (heap : List MedicineItem) (j : Nat)
    (h' : List MedicineItem), MinHeap.heapifyDownFuel mktime fuel heap j = some h' →
    ∀ k, k ≠ j → k < 2 * j + 1 → h'[k]? = heap[k]?
  | 0, heap, j, h', h => by simp [MinHeap.heapifyDownFuel] at h
  | fuel + 1, heap, j, h', h => by
    intro k hkj hk
    rw [heapifyDownFuel_eq] at h
    cases e1 : MinHeap.pickSmaller mktime heap (2 * j + 1) j with
    | none => simp [e1] at h
    | some s1 =>
      simp only [e1] at h
      cases e2 : MinHeap.pickSmaller mktime heap (2 * j + 2) s1 with
      | none => simp [e2] at h
      | some s2 =>
        simp only [e2] at h
        split at h
        · rename_i hne
          have hs := pickSmaller_pair mktime heap j s1 s2 e1 e2 hne
          split at h
          · rename_i a b ha hb
            rw [heapifyDownFuel_untouched fuel _ s2 h' h k (by omega) (by omega),
              swap_getElem? heap j s2 a b ha hb k]
            simp [hkj, show k ≠ s2 by omega]
          · simp at h
        · simp only [Option.some.injEq] at h
          rw [h]

theorem tie_picks_left (heap : List MedicineItem) (i : Nat) (x l r : MedicineItem)
    (hx : heap[i]? = some x) (hl : heap[2 * i + 1]? = some l)
    (hr : heap[2 * i + 2]? = some r)
    (heq : l.getExpiryTime mktime = r.getExpiryTime mktime)
    (hlt : l.getExpiryTime mktime < x.getExpiryTime mktime) :
    MinHeap.pickSmaller mktime heap (2 * i + 1) i = some (2 * i + 1) ∧
    MinHeap.pickSmaller mktime heap (2 * i + 2) (2 * i + 1) = some (2 * i + 1) := by
  have h1 : 2 * i + 1 < heap.length := (List.getElem?_eq_some.mp hl).1
  have h2 : 2 * i + 2 < heap.length := (List.getElem?_eq_some.mp hr).1
  constructor
  · simp [MinHeap.pickSmaller, h1, hx, hl, hlt]
  · simp [MinHeap.pickSmaller, h2, hl, hr, heq]

theorem keys_eq_of_perm_ascending (l1 l2 : List MedicineItem) (hp : l1.Perm l2)
    (h1 : KeysAscending mktime l1) (h2 : KeysAscending mktime l2) :
    l1.map (MedicineItem.getExpiryTime mktime) = l2.map (MedicineItem.getExpiryTime mktime) := by
  apply List.eq_of_perm_of_sorted (hp.map _) (r := fun a b : Int => a ≤ b)
  · exact List.pairwise_map.mpr h1
  · exact List.pairwise_map.mpr h2

end

/-! ## The claims, continued -/

/-- C11: inserting a word a second time gives the same trie as inserting it once, so
`search` and `startsWith` answer every query as they did after the first insert. -/
theorem C11_insert_idempotent (t : TrieNode) (w : Str) :
    Trie.insert (Trie.insert t w) w = Trie.insert t w ∧
    (∀ s, Trie.search (Trie.insert (Trie.insert t w) w) s = Trie.search (Trie.insert t w) s) ∧
    (∀ p, Trie.startsWith (Trie.insert (Trie.insert t w) w) p
      = Trie.startsWith (Trie.insert t w) p) := by
  have h := insert_insert_self w t
  exact ⟨h, fun s => by rw [h], fun p => by rw [h]⟩

/-- C12: `insert` never fails, and the storage afterwards is a rearrangement of the
storage before with the new record added once. -/
theorem C12_insert_adds_one (mktime : Tm → Int) (heap : List MedicineItem)
    (item : MedicineItem) :
    ∃ heap', MinHeap.insert mktime heap item = some heap' ∧ heap'.Perm (item :: heap) ∧
      MinHeap.size heap' = MinHeap.size heap + 1 := by
  obtain ⟨h', e⟩ := insert_isSome mktime heap item
  have hp : h'.Perm (item :: heap) :=
    (insert_perm mktime heap item h' e).trans (List.perm_append_singleton item heap)
  exact ⟨h', e, hp, by simpa [MinHeap.size] using hp.length_eq⟩

/-- C13: after `clear` the heap holds no record, whatever it held before: `isEmpty` is
true, `size` is 0 and `getSortedItems` returns the empty sequence. -/
theorem C13_clear_empties (mktime : Tm → Int) (heap : List MedicineItem) :
    MinHeap.clear heap = [] ∧
    MinHeap.isEmpty (MinHeap.clear heap) = true ∧
    MinHeap.size (MinHeap.clear heap) = 0 ∧
    (MinHeap.getSortedItems mktime (MinHeap.clear heap)).1 = [] :=
  ⟨rfl, rfl, rfl, rfl⟩

/-- C15: when `search p` is true, `startsWith p` contains the lowercase form of `p`, and
it is the first element of the sequence. -/
theorem C15_startsWith_has_word_first (t : TrieNode) (p : Str)
    (h : Trie.search t p = true) :
    lower p ∈ Trie.startsWith t p ∧ (Trie.startsWith t p).head? = some (lower p) := by
  obtain ⟨rest, e⟩ := startsWith_head_of_search t p h
  rw [e]
  exact ⟨List.mem_cons_self _ _, rfl⟩

/-- Witness of C15: the word "apple" in the trie of `test_trie`, asked for as "APPLE". -/
theorem C15_startsWith_has_word_first_witness :
    lower "APPLE".toList ∈
        Trie.startsWith
          (Trie.insertAll
            ["apple".toList, "banana".toList, "application".toList, "appetizer".toList])
          "APPLE".toList ∧
      (Trie.startsWith
          (Trie.insertAll
            ["apple".toList, "banana".toList, "application".toList, "appetizer".toList])
          "APPLE".toList).head? = some (lower "APPLE".toList) :=
  C15_startsWith_has_word_first _ _ (by decide)


/-- C16: the empty string is a word like any other. Inserting it only sets the terminal
flag of the root and leaves the children as they are; afterwards `search ""` is true and
`startsWith ""` begins with the empty string. In a trie built from non-empty words only,
`search ""` is false and `startsWith ""` lists every inserted word in lowercase, once. -/
theorem C16_empty_word (t : TrieNode) (W : List Str) :
    Trie.insert t [] = TrieNode.mk true t.children ∧
    Trie.search (Trie.insert t []) [] = true ∧
    (Trie.startsWith (Trie.insert t []) []).head? = some [] ∧
    ((∀ w ∈ W, w ≠ []) →
      Trie.search (Trie.insertAll W) [] = false ∧
      (∀ w, w ∈ Trie.startsWith (Trie.insertAll W) [] ↔ w ∈ W.map lower) ∧
      (Trie.startsWith (Trie.insertAll W) []).Nodup) := by
  refine ⟨rfl, rfl, ?_, ?_⟩
  · obtain ⟨rest, e⟩ := startsWith_head_of_search (Trie.insert t []) [] rfl
    rw [e]
    rfl
  · intro hW
    refine ⟨?_, ?_, ?_⟩
    · cases hs : Trie.search (Trie.insertAll W) [] with
      | false => rfl
      | true =>
        rw [search_eq_contains] at hs
        obtain ⟨w, hw, e⟩ := List.mem_map.mp ((contains_insertAll W _).mp hs)
        have : w = [] := by
          cases w with
          | nil => rfl
          | cons c r => simp [lower] at e
        exact absurd this (hW w hw)
    · intro w
      rw [mem_startsWith_iff _ (insertAll_ordered W), contains_insertAll]
      simp
    · exact pairwise_strLt_nodup _ (startsWith_pairwise _ (insertAll_ordered W) [])

/-- Witness of C16: the words of `test_trie`, all of them non-empty. -/
theorem C16_empty_word_witness :
    Trie.search
        (Trie.insertAll
          ["apple".toList, "banana".toList, "application".toList, "appetizer".toList])
        [] = false :=
  ((C16_empty_word Trie.new
      ["apple".toList, "banana".toList, "application".toList, "appetizer".toList]).2.2.2
    (by decide)).1

/-- C18: a trie built by inserts has no dead branch: every node other than the root that
has no children is terminal. So for a non-empty `p`, `startsWith p` is non-empty exactly
when the walk along the lowercase form of `p` finds every edge. -/
theorem C18_no_dead_branch (W : List Str) :
    (∀ q n, q ≠ [] → Trie.walk (Trie.insertAll W) q = some n →
      n.children = Children.nil → n.isEndOfWord = true) ∧
    (∀ p, p ≠ [] →
      (Trie.startsWith (Trie.insertAll W) p ≠ [] ↔
        ∃ n, Trie.walk (Trie.insertAll W) (lower p) = some n)) := by
  have hnd := insertAll_noDeadBranch W
  refine ⟨fun q n hq hw => (walk_noDeadBranch q _ n hnd hq hw).1, ?_⟩
  intro p hp
  have hlp : lower p ≠ [] := by
    cases p with
    | nil => exact absurd rfl hp
    | cons c r => simp [lower]
  constructor
  · intro hne
    cases hw : Trie.walk (Trie.insertAll W) (lower p) with
    | none =>
      have hw' : Trie.walk (Trie.insertAll W) (List.map tolower p) = none := hw
      exact absurd (by simp [Trie.startsWith, hw']) hne
    | some n => exact ⟨n, rfl⟩
  · rintro ⟨n, hw⟩
    have hn := walk_noDeadBranch (lower p) _ n hnd hlp hw
    have hwords := words_ne_nil n hn.2 hn.1
    have hw' : Trie.walk (Trie.insertAll W) (List.map tolower p) = some n := hw
    simp only [Trie.startsWith, hw', dfs_eq_words, List.nil_append, ne_eq, List.map_eq_nil_iff]
    exact hwords

/-- C19: inserting `a` then `b` gives the same trie as inserting `b` then `a`. So tries
built from rearrangements of the same words are equal, and the answers of `search` and
`startsWith` depend only on the set of lowercase forms of the inserted words. -/
theorem C19_insert_order_independent :
    (∀ (t : TrieNode) (a b : Str),
      Trie.insert (Trie.insert t a) b = Trie.insert (Trie.insert t b) a) ∧
    (∀ W1 W2 : List Str, W1.Perm W2 → Trie.insertAll W1 = Trie.insertAll W2) ∧
    (∀ W1 W2 : List Str, (∀ w, w ∈ W1.map lower ↔ w ∈ W2.map lower) →
      (∀ s, Trie.search (Trie.insertAll W1) s = Trie.search (Trie.insertAll W2) s) ∧
      (∀ p, Trie.startsWith (Trie.insertAll W1) p = Trie.startsWith (Trie.insertAll W2) p)) := by
  refine ⟨fun t a b => insert_comm a b t, ?_, ?_⟩
  · intro W1 W2 hp
    exact hp.foldl_eq' (fun x _ y _ z => insert_comm x y z) Trie.new
  · intro W1 W2 hset
    constructor
    · intro s
      have h1 := contains_insertAll W1 (lower s)
      have h2 := contains_insertAll W2 (lower s)
      rw [search_eq_contains, search_eq_contains]
      have : Trie.contains (Trie.insertAll W1) (lower s) = true ↔
          Trie.contains (Trie.insertAll W2) (lower s) = true := by
        rw [h1, h2]
        exact hset _
      exact Bool.eq_iff_iff.mpr this
    · intro p
      apply eq_of_pairwise_strLt _ _ (startsWith_pairwise _ (insertAll_ordered W1) p)
        (startsWith_pairwise _ (insertAll_ordered W2) p)
      intro w
      rw [mem_startsWith_iff _ (insertAll_ordered W1), mem_startsWith_iff _ (insertAll_ordered W2),
        contains_insertAll, contains_insertAll, hset w]

/-- C14: when both children of position `i` exist and have the same key, smaller than the
key at `i`, `heapifyDown(i)` selects the left child `2i+1`, swaps it with `i` and goes on
from `2i+1`. After the swap, and after the whole repair, position `i` holds the record
that was the left child and position `2i+2` holds the record it held before. -/
theorem C14_tie_prefers_left (mktime : Tm → Int) (heap : List MedicineItem) (i : Nat)
    (x l r : MedicineItem)
    (hx : heap[i]? = some x) (hl : heap[2 * i + 1]? = some l)
    (hr : heap[2 * i + 2]? = some r)
    (heq : l.getExpiryTime mktime = r.getExpiryTime mktime)
    (hlt : l.getExpiryTime mktime < x.getExpiryTime mktime) :
    MinHeap.pickSmaller mktime heap (2 * i + 1) i = some (2 * i + 1) ∧
    MinHeap.pickSmaller mktime heap (2 * i + 2) (2 * i + 1) = some (2 * i + 1) ∧
    MinHeap.heapifyDown mktime heap i
      = MinHeap.heapifyDown mktime ((heap.set i l).set (2 * i + 1) x) (2 * i + 1) ∧
    ((heap.set i l).set (2 * i + 1) x)[i]? = some l ∧
    ((heap.set i l).set (2 * i + 1) x)[2 * i + 1]? = some x ∧
    ((heap.set i l).set (2 * i + 1) x)[2 * i + 2]? = some r ∧
    ∃ heap', MinHeap.heapifyDown mktime heap i = some heap' ∧
      heap'[i]? = some l ∧ heap'[2 * i + 2]? = some r := by
  obtain ⟨p1, p2⟩ := tie_picks_left mktime heap i x l r hx hl hr heq hlt
  have hstep : MinHeap.heapifyDown mktime heap i
      = MinHeap.heapifyDown mktime ((heap.set i l).set (2 * i + 1) x) (2 * i + 1) := by
    rw [heapifyDown_eq mktime heap i, p1]
    simp only
    rw [p2]
    simp only [hx, hl]
    rw [if_pos (by omega)]
  have g : ∀ k, ((heap.set i l).set (2 * i + 1) x)[k]? =
      if k = 2 * i + 1 then some x else if k = i then some l else heap[k]? :=
    swap_getElem? heap i (2 * i + 1) x l hx hl
  have g1 : ((heap.set i l).set (2 * i + 1) x)[i]? = some l := by
    rw [g]
    simp [show i ≠ 2 * i + 1 by omega]
  have g2 : ((heap.set i l).set (2 * i + 1) x)[2 * i + 1]? = some x := by
    rw [g]
    simp
  have g3 : ((heap.set i l).set (2 * i + 1) x)[2 * i + 2]? = some r := by
    rw [g]
    simp [show 2 * i + 2 ≠ i by omega, hr]
  refine ⟨p1, p2, hstep, g1, g2, g3, ?_⟩
  obtain ⟨h', e⟩ := heapifyDownFuel_isSome mktime
    (((heap.set i l).set (2 * i + 1) x).length + 1) ((heap.set i l).set (2 * i + 1) x)
    (2 * i + 1) (by omega) (by omega)
  have hu := heapifyDownFuel_untouched mktime _ _ _ h' e
  refine ⟨h', ?_, ?_, ?_⟩
  · rw [hstep]
    exact e
  · rw [hu i (by omega) (by omega), g1]
  · rw [hu (2 * i + 2) (by omega) (by omega), g3]

/-- Witness of C14: `med1` above two records dated 2023-12-10. -/
theorem C14_tie_prefers_left_witness :
    MinHeap.heapifyDown mktimeUTC [med1, med2, med4] 0 = some [med2, med1, med4] :=
  (C14_tie_prefers_left mktimeUTC [med1, med2, med4] 0 med1 med2 med4 (by decide)
    (by decide) (by decide) (by decide) (by decide)).2.2.1.trans (by decide)

/-- C17: on a heap reached from the empty one by `insert`, `extractMin` and `clear`, the
keys of the records extracted one after the other until the heap is empty are, position
by position, the keys of the sequence `getSortedItems` returns for the same heap. -/
theorem C17_drain_matches_sorted (mktime : Tm → Int) (heap : List MedicineItem)
    (hr : Reachable mktime heap) :
    ∃ out, drain mktime heap = some out ∧
      out.map (MedicineItem.getExpiryTime mktime)
        = (MinHeap.getSortedItems mktime heap).1.map (MedicineItem.getExpiryTime mktime) := by
  obtain ⟨out, e, hperm, hasc⟩ :=
    drainFuel_spec mktime heap.length heap (le_refl _) (reachable_ord mktime _ hr)
  refine ⟨out, e, ?_⟩
  exact keys_eq_of_perm_ascending mktime out _
    (hperm.trans (stdSort_perm _ heap).symm) hasc (stdSort_ascending mktime heap)

/-- Witness of C17: the heap of `test_minheap`. -/
theorem C17_drain_matches_sorted_witness :
    ∃ out, drain mktimeUTC [med2, med1, med3] = some out ∧
      out.map (MedicineItem.getExpiryTime mktimeUTC)
        = (MinHeap.getSortedItems mktimeUTC [med2, med1, med3]).1.map
            (MedicineItem.getExpiryTime mktimeUTC) :=
  C17_drain_matches_sorted mktimeUTC [med2, med1, med3] testHeap_reachable

/-- C20: the two repairs end and read inside the storage. For an index `i < size`, both
`heapifyUp(i)` and `heapifyDown(i)` return a storage. `heapifyUp(i)` calls itself only
when `i > 0`, on the smaller index `(i - 1) / 2`; `heapifyDown(i)` calls itself only on a
selected child, `2i+1` or `2i+2`, which is larger than `i` and smaller than `size`.
Inserting into the empty heap runs `heapifyUp(0)`, which returns without a read. -/
theorem C20_repairs_total (mktime : Tm → Int) (heap : List MedicineItem) (i : Nat)
    (hi : i < MinHeap.size heap) :
    (∃ heap', MinHeap.heapifyUp mktime heap i = some heap') ∧
    (∃ heap', MinHeap.heapifyDown mktime heap i = some heap') ∧
    (MinHeap.heapifyUp mktime heap i =
      if i > 0 then
        match heap[i]?, heap[(i - 1) / 2]? with
        | some a, some b =>
          if a.getExpiryTime mktime < b.getExpiryTime mktime then
            MinHeap.heapifyUp mktime ((heap.set i b).set ((i - 1) / 2) a) ((i - 1) / 2)
          else some heap
        | _, _ => none
      else some heap) ∧
    (0 < i → (i - 1) / 2 < i ∧ (i - 1) / 2 < MinHeap.size heap) ∧
    (MinHeap.heapifyDown mktime heap i =
      match MinHeap.pickSmaller mktime heap (2 * i + 1) i with
      | none => none
      | some smallest =>
        match MinHeap.pickSmaller mktime heap (2 * i + 2) smallest with
        | none => none
        | some smallest =>
          if smallest ≠ i then
            match heap[i]?, heap[smallest]? with
            | some a, some b =>
              MinHeap.heapifyDown mktime ((heap.set i b).set smallest a) smallest
            | _, _ => none
          else some heap) ∧
    (∃ s1 s2, MinHeap.pickSmaller mktime heap (2 * i + 1) i = some s1 ∧
      MinHeap.pickSmaller mktime heap (2 * i + 2) s1 = some s2 ∧
      (s2 ≠ i → i < s2 ∧ s2 < MinHeap.size heap ∧ (s2 = 2 * i + 1 ∨ s2 = 2 * i + 2))) ∧
    (∀ item, MinHeap.heapifyUp mktime ([] ++ [item]) 0 = some [item] ∧
      MinHeap.insert mktime [] item = some [item]) := by
  have hi' : i < heap.length := hi
  refine ⟨?_, ?_, heapifyUp_eq mktime heap i, ?_, heapifyDown_eq mktime heap i, ?_, ?_⟩
  · exact Option.isSome_iff_exists.mp
      (heapifyUpFuel_isSome mktime (i + 1) heap i (by omega) hi')
  · exact heapifyDownFuel_isSome mktime (heap.length + 1) heap i (by omega) (by omega)
  · intro h0
    simp only [MinHeap.size]
    omega
  · obtain ⟨s1, e1⟩ := pickSmaller_isSome mktime heap (2 * i + 1) i hi'
    have p1 := pickSmaller_spec mktime heap _ _ _ e1
    obtain ⟨s2, e2⟩ := pickSmaller_isSome mktime heap (2 * i + 2) s1 (by omega)
    exact ⟨s1, s2, e1, e2, fun hne => pickSmaller_pair mktime heap i s1 s2 e1 e2 hne⟩
  · intro item
    exact ⟨rfl, rfl⟩

/-- Witness of C20: position 1 of the heap of `test_minheap`. -/
theorem C20_repairs_total_witness :
    (∃ heap', MinHeap.heapifyUp mktimeUTC [med2, med1, med3] 1 = some heap') ∧
    (∃ heap', MinHeap.heapifyDown mktimeUTC [med2, med1, med3] 1 = some heap') :=
  ⟨(C20_repairs_total mktimeUTC [med2, med1, med3] 1 (by decide)).1,
    (C20_repairs_total mktimeUTC [med2, med1, med3] 1 (by decide)).2.1⟩

end Mediloctae
